import Mathlib

/-!
Shallow embedding of `src/scolt.ts` (class SCOLT): a JSON-to-columnar-text
encoder with per-table deduplication, schema merging, reference compaction
and a dependency-ordered output pass.  JavaScript objects are modelled as
association lists in insertion order, JS `Map`s as association lists whose
`set` replaces in place (JS Maps keep the original insertion position on
overwrite), and JS numbers as integers (the only numeric operations the
code performs on data are identity and decimal printing).  Literal brace
characters in strings are written with their hex escapes.
-/

/-- The JSON value tree (`JSONValue` in scolt.ts).  Record fields are kept in
insertion order, as JS objects do for non-numeric keys. -/
inductive JSONValue where
  | null
  | bool (b : Bool)
  | num (n : Int)
  | str (s : String)
  | arr (xs : List JSONValue)
  | obj (fields : List (String × JSONValue))

namespace Scolt

-- Structural boolean equality on JSON values.
mutual
def jbeq : JSONValue → JSONValue → Bool
  | .null, .null => true
  | .bool a, .bool b => a == b
  | .num a, .num b => a == b
  | .str a, .str b => a == b
  | .arr a, .arr b => jbeqList a b
  | .obj a, .obj b => jbeqFields a b
  | _, _ => false

def jbeqList : List JSONValue → List JSONValue → Bool
  | [], [] => true
  | a :: as, b :: bs => jbeq a b && jbeqList as bs
  | _, _ => false

def jbeqFields : List (String × JSONValue) → List (String × JSONValue) → Bool
  | [], [] => true
  | (k, a) :: as, (l, b) :: bs => k == l && jbeq a b && jbeqFields as bs
  | _, _ => false
end

mutual
theorem jbeq_iff : ∀ a b, jbeq a b = true ↔ a = b
  | .null, .null => by simp [jbeq]
  | .null, .bool _ => by simp [jbeq]
  | .null, .num _ => by simp [jbeq]
  | .null, .str _ => by simp [jbeq]
  | .null, .arr _ => by simp [jbeq]
  | .null, .obj _ => by simp [jbeq]
  | .bool _, .null => by simp [jbeq]
  | .bool _, .bool _ => by simp [jbeq]
  | .bool _, .num _ => by simp [jbeq]
  | .bool _, .str _ => by simp [jbeq]
  | .bool _, .arr _ => by simp [jbeq]
  | .bool _, .obj _ => by simp [jbeq]
  | .num _, .null => by simp [jbeq]
  | .num _, .bool _ => by simp [jbeq]
  | .num _, .num _ => by simp [jbeq]
  | .num _, .str _ => by simp [jbeq]
  | .num _, .arr _ => by simp [jbeq]
  | .num _, .obj _ => by simp [jbeq]
  | .str _, .null => by simp [jbeq]
  | .str _, .bool _ => by simp [jbeq]
  | .str _, .num _ => by simp [jbeq]
  | .str _, .str _ => by simp [jbeq]
  | .str _, .arr _ => by simp [jbeq]
  | .str _, .obj _ => by simp [jbeq]
  | .arr _, .null => by simp [jbeq]
  | .arr _, .bool _ => by simp [jbeq]
  | .arr _, .num _ => by simp [jbeq]
  | .arr _, .str _ => by simp [jbeq]
  | .arr a, .arr b => by simp [jbeq, jbeqList_iff a b]
  | .arr _, .obj _ => by simp [jbeq]
  | .obj _, .null => by simp [jbeq]
  | .obj _, .bool _ => by simp [jbeq]
  | .obj _, .num _ => by simp [jbeq]
  | .obj _, .str _ => by simp [jbeq]
  | .obj _, .arr _ => by simp [jbeq]
  | .obj a, .obj b => by simp [jbeq, jbeqFields_iff a b]

theorem jbeqList_iff : ∀ a b, jbeqList a b = true ↔ a = b
  | [], [] => by simp [jbeqList]
  | [], _ :: _ => by simp [jbeqList]
  | _ :: _, [] => by simp [jbeqList]
  | a :: as, b :: bs => by simp [jbeqList, jbeq_iff a b, jbeqList_iff as bs]

theorem jbeqFields_iff : ∀ a b, jbeqFields a b = true ↔ a = b
  | [], [] => by simp [jbeqFields]
  | [], _ :: _ => by simp [jbeqFields]
  | _ :: _, [] => by simp [jbeqFields]
  | (k, a) :: as, (l, b) :: bs => by
      simp [jbeqFields, jbeq_iff a b, jbeqFields_iff as bs, and_assoc]
end

instance : DecidableEq JSONValue := fun a b =>
  decidable_of_iff (jbeq a b = true) (jbeq_iff a b)

/-- Lookup in an association list: the JS property read `m[k]` / `Map.get`.
Returns the first binding, `none` playing the role of `undefined`. -/
def alookup {α : Type} : List (String × α) → String → Option α
  | [], _ => none
  | (k, v) :: rest, key => if k == key then some v else alookup rest key

/-- JS `Map.set` / property write: replace in place if the key is present
(JS Maps and objects keep the original insertion position), else append. -/
def aset {α : Type} : List (String × α) → String → α → List (String × α)
  | [], key, v => [(key, v)]
  | (k, w) :: rest, key, v =>
      if k == key then (key, v) :: rest else (k, w) :: aset rest key v

/-- Key-presence test, the JS `key in object` operator (restricted to the
string keys our model carries; JS primitives would throw here, and arrays
expose only index/length keys, none of which are column names). -/
def hasKey {α : Type} (m : List (String × α)) (key : String) : Bool :=
  (alookup m key).isSome

/-- The own enumerable fields of a value, as read by `item[columnName]` and
`Object.keys`: records expose their fields, everything else none. -/
def jsFields : JSONValue → List (String × JSONValue)
  | .obj fs => fs
  | _ => []

/-- `value && typeof value === "object"`: a non-null object or array. -/
def objectLike : JSONValue → Bool
  | .arr _ => true
  | .obj _ => true
  | _ => false

/-- `typeof value === "object"` alone, which in JS is also true for `null`. -/
def typeofObject : JSONValue → Bool
  | .null => true
  | .arr _ => true
  | .obj _ => true
  | _ => false

/-- Escape for JSON string serialization: the characters `JSON.stringify`
escapes that can occur in this development (quote, backslash, newline,
tab, carriage return). -/
def jsonEscapeChar (c : Char) : String :=
  if c == '"' then "\\\""
  else if c == '\\' then "\\\\"
  else if c == '\n' then "\\n"
  else if c == '\t' then "\\t"
  else if c == '\r' then "\\r"
  else String.singleton c

def jsonEscape (s : String) : String :=
  String.join (s.toList.map jsonEscapeChar)

-- `JSON.stringify` on the value tree: element order and field insertion
-- order preserved, no whitespace.
mutual
def jsonStringify : JSONValue → String
  | .null => "null"
  | .bool b => if b then "true" else "false"
  | .num n => toString n
  | .str s => "\"" ++ jsonEscape s ++ "\""
  | .arr xs => "[" ++ jsonStringifyList xs ++ "]"
  | .obj fs => "\x7b" ++ jsonStringifyFields fs ++ "\x7d"

def jsonStringifyList : List JSONValue → String
  | [] => ""
  | [v] => jsonStringify v
  | v :: vs => jsonStringify v ++ "," ++ jsonStringifyList vs

def jsonStringifyFields : List (String × JSONValue) → String
  | [] => ""
  | [(k, v)] => "\"" ++ jsonEscape k ++ "\":" ++ jsonStringify v
  | (k, v) :: fs =>
      "\"" ++ jsonEscape k ++ "\":" ++ jsonStringify v ++ "," ++ jsonStringifyFields fs
end

-- JS `String(value)` string conversion: primitives print literally, arrays
-- join their elements with commas (null elements become empty), plain objects
-- become the literal `[object Object]`.
mutual
def jsToString : JSONValue → String
  | .null => "null"
  | .bool b => if b then "true" else "false"
  | .num n => toString n
  | .str s => s
  | .arr xs => jsToStringList xs
  | .obj _ => "[object Object]"

def jsToStringList : List JSONValue → String
  | [] => ""
  | [v] => jsToStringElem v
  | v :: vs => jsToStringElem v ++ "," ++ jsToStringList vs

def jsToStringElem : JSONValue → String
  | .null => ""
  | .bool b => if b then "true" else "false"
  | .num n => toString n
  | .str s => s
  | .arr xs => jsToStringList xs
  | .obj _ => "[object Object]"
end

/-- JS whitespace as tested by `\s` and removed by `trim`, restricted to the
whitespace characters representable here. -/
def jsSpace (c : Char) : Bool :=
  c == ' ' || c == '\t' || c == '\n' || c == '\r'

def jsTrim (s : String) : String :=
  String.mk (((s.toList.dropWhile jsSpace).reverse.dropWhile jsSpace).reverse)

/-- `/[,\s"]/.test(value)`: does the string need quoting? -/
def needsQuoting (s : String) : Bool :=
  s.toList.any (fun c => c == ',' || c == '"' || jsSpace c)

/-- `value.replace(/"/g, '\\"')`. -/
def escapeQuotes (s : String) : String :=
  String.join (s.toList.map (fun c => if c == '"' then "\\\"" else String.singleton c))

/-- Join a list of strings with a separator (`Array.join` / template
concatenation in the JS code), written structurally so that concrete
instances evaluate inside the kernel. -/
def joinSep (sep : String) : List String → String
  | [] => ""
  | [x] => x
  | x :: xs => x ++ sep ++ joinSep sep xs

/-- `cell.startsWith "@")`, on the character list. -/
def startsWithAt (s : String) : Bool :=
  match s.toList with
  | '@' :: _ => true
  | _ => false

/-- Split a character list on commas (`String.split(",")`). -/
def splitComma : List Char → List (List Char)
  | [] => [[]]
  | c :: rest =>
      if c == ',' then [] :: splitComma rest
      else
        match splitComma rest with
        | g :: gs => (c :: g) :: gs
        | [] => [[c]]

/-- `Number(group)` restricted to plain digit runs: the decimal value, or
`none` for anything `Number` would turn into `NaN` here. -/
def digitsToNat? (cs : List Char) : Option Nat :=
  if cs.isEmpty || !(cs.all Char.isDigit) then none
  else some (cs.foldl (fun n c => n * 10 + (c.toNat - '0'.toNat)) 0)

/-- `serializePrimitive` (scolt.ts lines 413-422). -/
def serializePrimitive : JSONValue → String
  | .null => "null"
  | .num n => toString n
  | .bool b => if b then "true" else "false"
  | .str s =>
      if jsTrim s = "" then "\"\""
      else if needsQuoting s then "\"" ++ escapeQuotes s ++ "\"" else s
  | v => jsToString v

/-- The priority column names of `sortColumnNames`. -/
def priorityColumns : List String := ["id", "name", "type", "key"]

/-- Codepoint-lexicographic comparison of character lists. -/
def listCompare : List Char → List Char → Ordering
  | [], [] => .eq
  | [], _ :: _ => .lt
  | _ :: _, [] => .gt
  | c :: cs, d :: ds =>
      if c.toNat < d.toNat then .lt
      else if c.toNat == d.toNat then listCompare cs ds
      else .gt

/-- `localeCompare`, modelled as codepoint-lexicographic comparison (all
column names exercised here are plain lowercase identifiers, where the
default locale agrees with codepoint order). -/
def strCompare (a b : String) : Ordering :=
  listCompare a.toList b.toList

/-- The comparator of `sortColumnNames` (scolt.ts lines 391-401): priority
columns first in their declared order, the rest by `localeCompare`. -/
def colCompare (a b : String) : Ordering :=
  match priorityColumns.indexOf? a, priorityColumns.indexOf? b with
  | some i, some j => compare i j
  | some _, none => .lt
  | none, some _ => .gt
  | none, none => strCompare a b

/-- The order induced by the comparator. -/
def colLe (a b : String) : Prop := colCompare a b ≠ Ordering.gt

instance : DecidableRel colLe := fun a b => by
  unfold colLe; infer_instance

/-- `sortColumnNames`: JS `Array.sort` with the comparator above.  The
comparator is total and antisymmetric, so every comparison sort produces
the same list; we use insertion sort. -/
def sortColumnNames (columns : List String) : List String :=
  columns.insertionSort colLe

/-- `TableData` (scolt.ts lines 18-22). -/
structure TableData where
  columns : List String
  rows : List (List String)
  originalData : List JSONValue
deriving DecidableEq

/-- The mutable state of one `SCOLT` instance during a `parse` call
(scolt.ts lines 33-48).  Iteration over a JS `Map` follows insertion
order, which the association lists preserve. -/
structure SCOLT where
  tableRegistry : List (String × TableData)
  arrayReferenceCache : List (String × String)
  tableIndexCounters : List (String × Nat)
  rootLevelKeys : List String
  objectToIndexMap : List (String × List (String × Nat))
  defaultValues : List (String × JSONValue)
  tableStructure : List (String × String)
deriving DecidableEq

/-- `SCOLTConfig` (scolt.ts lines 13-16). -/
structure SCOLTConfig where
  defaultValues : List (String × JSONValue) := []
  tableStructure : List (String × String) := []

/-- `resolveTableName` (scolt.ts lines 376-379).  An empty-string mapping is
falsy in JS and falls back to the context name. -/
def resolveTableName (s : SCOLT) (context : String) : String :=
  match alookup s.tableStructure context with
  | some customMapping =>
      if customMapping == "" then "@" ++ context else "@" ++ customMapping
  | none => "@" ++ context

/-- The nullish coalescing chain `sourceValue ?? defaultValue ?? null` used
by `applyDefaultsToRow` and `generateCanonicalKey`: JS `??` skips both
`undefined` (a missing key, our `none`) and `null`. -/
def nullishChain (sourceValue : Option JSONValue) (defaultValue : Option JSONValue) :
    JSONValue :=
  match sourceValue with
  | some v => if jbeq v JSONValue.null then
      (match defaultValue with
       | some d => if jbeq d JSONValue.null then JSONValue.null else d
       | none => JSONValue.null)
    else v
  | none =>
      match defaultValue with
      | some d => if jbeq d JSONValue.null then JSONValue.null else d
      | none => JSONValue.null

/-- `applyDefaultsToRow` (scolt.ts lines 92-108): normalize a record against
a column list, substituting the configured default for nullish own values. -/
def applyDefaultsToRow (defaultValues : List (String × JSONValue))
    (sourceObject : List (String × JSONValue)) (columnNames : List String) :
    List (String × JSONValue) :=
  columnNames.map (fun columnName =>
    if hasKey sourceObject columnName then
      (columnName, nullishChain (alookup sourceObject columnName) (alookup defaultValues columnName))
    else
      (columnName, nullishChain none (alookup defaultValues columnName)))

/-- `generateCanonicalKey` (scolt.ts lines 110-128): serialize the
normalized field values in column order; object values are replaced by
their own `JSON.stringify` text (so the outer stringify sees a string). -/
def generateCanonicalKey (defaultValues : List (String × JSONValue))
    (sourceObject : List (String × JSONValue)) (columnNames : List String) : String :=
  "\x7b" ++ joinSep ","
    (columnNames.map (fun columnName =>
      let value := nullishChain (alookup sourceObject columnName) (alookup defaultValues columnName)
      "\"" ++ jsonEscape columnName ++ "\":" ++
        (if objectLike value then jsonStringify (JSONValue.str (jsonStringify value))
         else jsonStringify value)))
    ++ "\x7d"

/-- `createNewTable` (scolt.ts lines 268-276). -/
def createNewTable (s : SCOLT) (tableName : String) (columns : List String) : SCOLT :=
  { s with
    tableRegistry := aset s.tableRegistry tableName
      { columns := columns, rows := [], originalData := [] }
    tableIndexCounters := aset s.tableIndexCounters tableName 0
    objectToIndexMap := aset s.objectToIndexMap tableName [] }

/-- `resolveReference` (scolt.ts lines 347-374): primitive values serialize
inline; a memoized value returns its cached reference; an unknown table
renders `null`; a bare record resolves through the dedup index; otherwise
the last row of the table is referenced (`rows.length - 1`, which JS renders
as `-1` on an empty table). -/
def resolveReference (s : SCOLT) (value : JSONValue) (context : String) : String :=
  if !objectLike value then serializePrimitive value
  else
    let cacheKey := jsonStringify value
    match alookup s.arrayReferenceCache cacheKey with
    | some cached => cached
    | none =>
      let tableName := resolveTableName s context
      match alookup s.tableRegistry tableName with
      | none => "null"
      | some table =>
        let viaIndex :=
          match value with
          | .arr _ => none
          | _ =>
            let columns := table.columns
            let normalizedRow := applyDefaultsToRow s.defaultValues (jsFields value) columns
            let canonicalKey := generateCanonicalKey s.defaultValues normalizedRow columns
            match alookup s.objectToIndexMap tableName with
            | some canonicalKeyMap =>
                (alookup canonicalKeyMap canonicalKey).map
                  (fun idx => tableName ++ "[" ++ toString idx ++ "]")
            | none => none
        match viaIndex with
        | some r => r
        | none => tableName ++ "[" ++ toString ((table.rows.length : Int) - 1) ++ "]"

/-- One rendered cell: `typeof value === "object"` (true for null, arrays
and records) goes through `resolveReference`, everything else through
`serializePrimitive` (scolt.ts lines 310-315 and 331-336). -/
def renderCell (s : SCOLT) (normalizedRow : List (String × JSONValue))
    (columnName : String) : String :=
  let value := (alookup normalizedRow columnName).getD JSONValue.null
  if typeofObject value then resolveReference s value columnName
  else serializePrimitive value

/-- `addRowToTable` (scolt.ts lines 321-345): render the cells against the
current state, then append the row, its source record, the dedup-index
entry and the counter.  Returns the new row index. -/
def addRowToTable (s : SCOLT) (tableName : String) (originalItem : JSONValue)
    (normalizedRow : List (String × JSONValue)) (columns : List String)
    (canonicalKey : String) : SCOLT × Nat :=
  match alookup s.tableRegistry tableName with
  | none => (s, 0)
  | some table =>
    let row := columns.map (renderCell s normalizedRow)
    let rowIndex := table.rows.length
    let canonicalKeyMap := (alookup s.objectToIndexMap tableName).getD []
    ({ s with
        tableRegistry := aset s.tableRegistry tableName
          { table with rows := table.rows ++ [row],
                       originalData := table.originalData ++ [originalItem] }
        objectToIndexMap := aset s.objectToIndexMap tableName
          (aset canonicalKeyMap canonicalKey rowIndex)
        tableIndexCounters := aset s.tableIndexCounters tableName (rowIndex + 1) },
      rowIndex)

/-- `hasColumnsChanged` (scolt.ts lines 403-411). -/
def hasColumnsChanged (oldColumns newColumns : List String) : Bool :=
  oldColumns.length != newColumns.length || newColumns != oldColumns

/-- `rebuildTableWithNewColumns` (scolt.ts lines 296-319): install the new
column list first (the JS code mutates `table.columns` before mapping), then
re-render every row from its stored source record against the state that has
the new columns but still the old rows and old dedup index, and finally
install the new rows and the dedup index rebuilt from the new canonical
keys. -/
def rebuildTableWithNewColumns (s : SCOLT) (tableName : String)
    (newColumns : List String) : SCOLT :=
  match alookup s.tableRegistry tableName with
  | none => s
  | some table =>
    let s1 := { s with
      tableRegistry := aset s.tableRegistry tableName { table with columns := newColumns } }
    let newRows := table.originalData.map (fun item =>
      let normalizedRow := applyDefaultsToRow s.defaultValues (jsFields item) newColumns
      newColumns.map (renderCell s1 normalizedRow))
    let canonicalKeys := table.originalData.map (fun item =>
      let normalizedRow := applyDefaultsToRow s.defaultValues (jsFields item) newColumns
      generateCanonicalKey s.defaultValues normalizedRow newColumns)
    let newCanonicalKeyMap :=
      (canonicalKeys.enum).foldl (fun m p => aset m p.2 p.1) []
    { s1 with
      tableRegistry := aset s1.tableRegistry tableName
        { table with columns := newColumns, rows := newRows }
      objectToIndexMap := aset s.objectToIndexMap tableName newCanonicalKeyMap }

/-- `mergeTableColumns` (scolt.ts lines 278-294): append the unseen new
columns, re-sort, and rebuild the table when the sorted result differs. -/
def mergeTableColumns (s : SCOLT) (tableName : String) (newColumns : List String) : SCOLT :=
  match alookup s.tableRegistry tableName with
  | none => s
  | some table =>
    let mergedColumns := table.columns ++
      newColumns.filter (fun c => !(table.columns.contains c))
    let sortedColumns := sortColumnNames mergedColumns
    if hasColumnsChanged table.columns sortedColumns then
      rebuildTableWithNewColumns s tableName sortedColumns
    else s

/-- `extractColumnNames` (scolt.ts lines 381-389): collect the keys of the
record elements in first-seen order, then sort. -/
def extractColumnNames (array : List JSONValue) : List String :=
  sortColumnNames (array.foldl (fun acc item =>
    match item with
    | .obj fs => fs.foldl (fun acc p => if acc.contains p.1 then acc else acc ++ [p.1]) acc
    | _ => acc) [])

/-- Is the value a record (a non-null, non-array object)?  The negation of
the first-element test of `processArrayValue` (scolt.ts lines 156-160). -/
def isRecord : JSONValue → Bool
  | .obj _ => true
  | _ => false

/-- The per-column nested-processing step shared by the array and object
paths (scolt.ts lines 200-205 and 247-252): an object-like field value is
recursively processed under the column name as context. -/
def nestedColumnStep (rec : SCOLT → JSONValue → String → SCOLT)
    (fields : List (String × JSONValue)) (s : SCOLT) (columnName : String) : SCOLT :=
  match alookup fields columnName with
  | some nestedValue => if objectLike nestedValue then rec s nestedValue columnName else s
  | none => s

/-- The per-element step of the array loop (scolt.ts lines 199-222):
process nested fields, normalize, canonicalize, then either reuse the
deduplicated row index or append a new row. -/
def arrayItemStep (rec : SCOLT → JSONValue → String → SCOLT) (tableName : String)
    (columns : List String) (acc : SCOLT × List Nat) (item : JSONValue) : SCOLT × List Nat :=
  let s := columns.foldl (nestedColumnStep rec (jsFields item)) acc.1
  let normalizedRow := applyDefaultsToRow s.defaultValues (jsFields item) columns
  let canonicalKey := generateCanonicalKey s.defaultValues normalizedRow columns
  match alookup ((alookup s.objectToIndexMap tableName).getD []) canonicalKey with
  | some idx => (s, acc.2 ++ [idx])
  | none =>
      let r := addRowToTable s tableName item normalizedRow columns canonicalKey
      (r.1, acc.2 ++ [r.2])

/-- `processValue` / `processArrayValue` / `processObjectValue`
(scolt.ts lines 130-266), written as one function, structurally recursive
on a fuel argument that bounds the recursion depth (`parse` supplies a
structural bound, so the fuel never runs out on the actual call).  The JS
code reads `columns` once after registration (a snapshot, since a rebuild
replaces the stored array) and reads the dedup index at each use. -/
def processValue (fuel : Nat) (s : SCOLT) (value : JSONValue) (context : String) : SCOLT :=
  match fuel with
  | 0 => s
  | Nat.succ fuel =>
    match value with
    | JSONValue.arr array =>
      let cacheKey := jsonStringify (JSONValue.arr array)
      if hasKey s.arrayReferenceCache cacheKey then s
      else
        match array with
        | [] => { s with arrayReferenceCache := aset s.arrayReferenceCache cacheKey "[]" }
        | firstElement :: _ =>
          if !isRecord firstElement then
            let serializedArray := joinSep "," (array.map (fun item =>
              match item with
              | JSONValue.arr inner =>
                  "[" ++ joinSep "," (inner.map serializePrimitive) ++ "]"
              | _ => serializePrimitive item))
            { s with arrayReferenceCache := aset s.arrayReferenceCache cacheKey ("[" ++ serializedArray ++ "]") }
          else
            let tableName := resolveTableName s context
            let extractedColumns := extractColumnNames array
            if extractedColumns.isEmpty then
              let primitiveArray :=
                joinSep "," (array.map serializePrimitive)
              { s with arrayReferenceCache := aset s.arrayReferenceCache cacheKey ("[" ++ primitiveArray ++ "]") }
            else
              let s :=
                if !(hasKey s.tableRegistry tableName) then
                  createNewTable s tableName extractedColumns
                else mergeTableColumns s tableName extractedColumns
              let columns :=
                match alookup s.tableRegistry tableName with
                | some t => t.columns
                | none => []
              let loopResult := array.foldl
                (arrayItemStep (fun s v c => processValue fuel s v c) tableName columns)
                (s, ([] : List Nat))
              { loopResult.1 with arrayReferenceCache := aset loopResult.1.arrayReferenceCache cacheKey (tableName ++ "[" ++ joinSep "," (loopResult.2.map toString) ++ "]") }
    | JSONValue.obj fields =>
      let cacheKey := jsonStringify (JSONValue.obj fields)
      if hasKey s.arrayReferenceCache cacheKey then s
      else
        let tableName := resolveTableName s context
        let extractedColumns := sortColumnNames (fields.map Prod.fst)
        let s :=
          if !(hasKey s.tableRegistry tableName) then
            createNewTable s tableName extractedColumns
          else mergeTableColumns s tableName extractedColumns
        let columns :=
          match alookup s.tableRegistry tableName with
          | some t => t.columns
          | none => []
        let s := columns.foldl
          (nestedColumnStep (fun s v c => processValue fuel s v c) fields) s
        let normalizedRow := applyDefaultsToRow s.defaultValues fields columns
        let canonicalKey := generateCanonicalKey s.defaultValues normalizedRow columns
        if hasKey ((alookup s.objectToIndexMap tableName).getD []) canonicalKey then s
        else (addRowToTable s tableName (JSONValue.obj fields) normalizedRow columns canonicalKey).1
    | _ => s

/-- `isSequentialFullTableReference` (scolt.ts lines 471-479). -/
def isSequentialFullTableReference (indices : List Nat) (totalRows : Nat) : Bool :=
  indices.length == totalRows && indices.enum.all (fun p => p.2 == p.1)

/-- A JS `\w` word character. -/
def isWordChar (c : Char) : Bool :=
  c.isAlpha || c.isDigit || c = '_'

/-- The regular expression `/^(@\w+)\[([\d,]+)\]$/` with the bracketed part
split on commas and run through `Number`: returns the table name and the
index list.  Groups that are not plain digit runs make `Number` produce
`NaN`, which can never satisfy the sequential check, so they are folded
into the no-match result. -/
def parseTableRef (reference : String) : Option (String × List Nat) :=
  match reference.toList with
  | '@' :: rest =>
    let nameChars := rest.takeWhile isWordChar
    if nameChars.isEmpty then none
    else
      match rest.drop nameChars.length with
      | '[' :: afterBracket =>
        match afterBracket.getLast? with
        | some ']' =>
          let middle := afterBracket.dropLast
          if !middle.isEmpty && middle.all (fun c => c.isDigit || c == ',') then
            let parsed := (splitComma middle).map digitsToNat?
            if parsed.all Option.isSome then
              some ("@" ++ String.mk nameChars, parsed.reduceOption)
            else none
          else none
        | _ => none
      | _ => none
  | _ => none

/-- The per-reference body shared by `compactArrayReferences` (scolt.ts
lines 424-441) and `optimizeTableReferences` (lines 443-469): match the
indexed-reference shape, sort the indices ascending, and rewrite to the
bare table name when they enumerate the whole referenced table. -/
def compactReference (s : SCOLT) (reference : String) : String :=
  match parseTableRef reference with
  | none => reference
  | some (tableName, rawIndices) =>
    let indices := rawIndices.insertionSort (· ≤ ·)
    match alookup s.tableRegistry tableName with
    | none => reference
    | some table =>
      if isSequentialFullTableReference indices table.rows.length then tableName
      else reference

/-- `compactArrayReferences` (scolt.ts lines 424-441). -/
def compactArrayReferences (s : SCOLT) : SCOLT :=
  { s with arrayReferenceCache :=
      s.arrayReferenceCache.map (fun p => (p.1, compactReference s p.2)) }

/-- `optimizeTableReferences` (scolt.ts lines 443-469). -/
def optimizeTableReferences (s : SCOLT) : SCOLT :=
  { s with tableRegistry := s.tableRegistry.map (fun p =>
      (p.1, { p.2 with rows := p.2.rows.map (fun row => row.map (fun cell =>
        if startsWithAt cell then compactReference s cell else cell)) })) }

/-- `cell.split(/[\[{]/)[0]`: the table-name prefix of a reference cell. -/
def cellTablePrefix (cell : String) : String :=
  String.mk (cell.toList.takeWhile (fun c => c != '[' && c != '\x7b'))

/-- The cell scan of `buildDependencyGraph` (scolt.ts lines 586-595):
record a referenced table unless it is the table itself or already seen. -/
def depCellStep (self : String) (deps : List String) (cell : String) : List String :=
  if startsWithAt cell then
    let referencedTable := cellTablePrefix cell
    if referencedTable != self && !(deps.contains referencedTable) then
      deps ++ [referencedTable]
    else deps
  else deps

/-- The per-table dependency collection of `buildDependencyGraph`. -/
def tableDeps (self : String) (rows : List (List String)) : List String :=
  rows.foldl (fun deps row => row.foldl (depCellStep self) deps) []

/-- `buildDependencyGraph` (scolt.ts lines 581-598): for each table, the
distinct referenced tables other than itself, in first-seen order. -/
def buildDependencyGraph (registry : List (String × TableData)) :
    List (String × List String) :=
  registry.map (fun p => (p.1, tableDeps p.1 p.2.rows))

/-- Sequentially visit a list of nodes, threading the visited set and the
output order, propagating fuel exhaustion. -/
def visitList
    (step : String → List String → List String → Option (List String × List String)) :
    List String → List String → List String → Option (List String × List String)
  | [], visited, order => some (visited, order)
  | d :: rest, visited, order =>
    match step d visited order with
    | none => none
    | some (v, o) => visitList step rest v o

/-- The dependencies of a node in the graph (empty for unknown nodes). -/
def gdeps (g : List (String × List String)) (node : String) : List String :=
  (alookup g node).getD []

/-- The recursive `visitNode` closure of `computeTopologicalOrder`
(scolt.ts lines 559-572): skip nodes already visited or in progress,
otherwise visit the dependencies that are graph keys with this node marked
in progress, then emit the node.  Fuel bounds the nesting depth; the JS
recursion terminates because the in-progress set grows along every chain,
which is exactly the fuel bound proved sufficient below. -/
def visitNode (g : List (String × List String)) :
    Nat → String → List String → List String → List String →
    Option (List String × List String)
  | 0, _, _, _, _ => none
  | Nat.succ fuel, node, visited, visiting, order =>
    if visited.contains node then some (visited, order)
    else if visiting.contains node then some (visited, order)
    else
      match visitList (fun d v o =>
          if hasKey g d then visitNode g fuel d v (node :: visiting) o
          else some (v, o)) (gdeps g node) visited order with
      | none => none
      | some (v, o) => some (node :: v, o ++ [node])

/-- The driver loop of `computeTopologicalOrder` (scolt.ts lines 574-577). -/
def topoAux (g : List (String × List String)) : Option (List String × List String) :=
  visitList (fun node v o => visitNode g (g.length + 1) node v [] o)
    (g.map Prod.fst) [] []

/-- `computeTopologicalOrder` (scolt.ts lines 553-579). -/
def computeTopologicalOrder (g : List (String × List String)) : List String :=
  match topoAux g with
  | some p => p.2
  | none => []

/-- `formatTableOutput` (scolt.ts lines 504-513). -/
def formatTableOutput (tableName : String) (table : TableData) : String :=
  let header := tableName ++ "\x7b" ++ joinSep "," table.columns ++ "\x7d:"
  match table.rows with
  | [row] => header ++ " " ++ joinSep "," row
  | _ => header ++ "\n" ++
      joinSep "\n" (table.rows.map (fun row => "  " ++ joinSep "," row))

/-- `formatRootTable` (scolt.ts lines 542-551). -/
def formatRootTable (key : String) (table : TableData) : String :=
  let header := "#" ++ key ++ "\x7b" ++ joinSep "," table.columns ++ "\x7d:"
  match table.rows with
  | [row] => header ++ " " ++ joinSep "," row
  | _ => header ++ "\n" ++
      joinSep "\n" (table.rows.map (fun row => "  " ++ joinSep "," row))

/-- The regular expression `/^(@\w+)(\[.*)?$/` of `buildRootOutput`,
returning the `@name` group. -/
def parseRootRef (reference : String) : Option String :=
  match reference.toList with
  | '@' :: rest =>
    let nameChars := rest.takeWhile isWordChar
    if nameChars.isEmpty then none
    else
      match rest.drop nameChars.length with
      | [] => some ("@" ++ String.mk nameChars)
      | '[' :: _ => some ("@" ++ String.mk nameChars)
      | _ => none
  | _ => none

/-- `buildRootOutput` (scolt.ts lines 515-540). -/
def buildRootOutput (s : SCOLT) (rootData : JSONValue) : List String :=
  match rootData with
  | .arr _ => [resolveReference s rootData "root"]
  | .obj fields =>
      fields.map (fun p =>
        let reference := resolveReference s p.2 p.1
        match parseRootRef reference with
        | some tableName =>
          if tableName == resolveTableName s p.1 then
            match alookup s.tableRegistry tableName with
            | some table => formatRootTable p.1 table
            | none => "#" ++ p.1 ++ ": " ++ reference
          else "#" ++ p.1 ++ ": " ++ reference
        | none => "#" ++ p.1 ++ ": " ++ reference)
  | _ => [jsToString rootData]

/-- `buildTabularOutput` (scolt.ts lines 481-502). -/
def buildTabularOutput (s : SCOLT) (rootData : JSONValue) : String :=
  let dependencyOrder := computeTopologicalOrder (buildDependencyGraph s.tableRegistry)
  let tableLines := dependencyOrder.foldl (fun acc tableName =>
    if tableName == "@root" then acc
    else
      let keyName := String.mk (tableName.toList.drop 1)
      if s.rootLevelKeys.contains keyName then acc
      else
        match alookup s.tableRegistry tableName with
        | none => acc
        | some table =>
            if table.rows.isEmpty then acc
            else acc ++ [formatTableOutput tableName table]) []
  let rootLines := buildRootOutput s rootData
  let tablesSection := joinSep "\n\n" tableLines
  let rootSection := joinSep "\n" rootLines
  if tablesSection != "" then
    (if rootSection != "" then tablesSection ++ "\n\n" ++ rootSection else tablesSection)
  else rootSection

-- A structural fuel bound for `processValue`: every recursive call descends
-- to a strict subvalue, so the total node count bounds the nesting depth.
mutual
def jsonFuel : JSONValue → Nat
  | .arr xs => jsonFuelList xs + 1
  | .obj fs => jsonFuelFields fs + 1
  | _ => 1

def jsonFuelList : List JSONValue → Nat
  | [] => 0
  | v :: vs => jsonFuel v + jsonFuelList vs

def jsonFuelFields : List (String × JSONValue) → Nat
  | [] => 0
  | (_, v) :: fs => jsonFuel v + jsonFuelFields fs
end

/-- The engine state at the end of `parse` (scolt.ts lines 65-89), before
text layout. -/
def parseState (data : JSONValue) (config : SCOLTConfig) : SCOLT :=
  let s : SCOLT := {
    tableRegistry := []
    arrayReferenceCache := []
    tableIndexCounters := []
    rootLevelKeys := (match data with | .obj fields => fields.map Prod.fst | _ => [])
    objectToIndexMap := []
    defaultValues := config.defaultValues
    tableStructure := config.tableStructure }
  optimizeTableReferences (compactArrayReferences (processValue (jsonFuel data) s data "root"))

/-- `parse` (scolt.ts lines 65-90). -/
def parse (data : JSONValue) (config : SCOLTConfig) : String :=
  buildTabularOutput (parseState data config) data

/-! ### Association-list lemmas -/

theorem alookup_cons {α : Type} (k0 : String) (w : α) (rest : List (String × α))
    (key : String) :
    alookup ((k0, w) :: rest) key = if k0 = key then some w else alookup rest key := by
  simp only [alookup, beq_iff_eq]

theorem alookup_aset_self {α : Type} (m : List (String × α)) (k : String) (v : α) :
    alookup (aset m k v) k = some v := by
  induction m with
  | nil => simp [aset, alookup_cons, alookup]
  | cons p rest ih =>
      obtain ⟨k0, w⟩ := p
      simp only [aset, beq_iff_eq]
      by_cases h0 : k0 = k
      · simp [h0, alookup_cons]
      · simp [h0, alookup_cons, ih]

theorem alookup_aset_ne {α : Type} (m : List (String × α)) (k k' : String) (v : α)
    (h : k' ≠ k) : alookup (aset m k v) k' = alookup m k' := by
  induction m with
  | nil => simp [aset, alookup_cons, alookup, Ne.symm h]
  | cons p rest ih =>
      obtain ⟨k0, w⟩ := p
      simp only [aset, beq_iff_eq]
      by_cases h0 : k0 = k
      · subst h0
        simp [alookup_cons, Ne.symm h]
      · rw [if_neg h0]
        simp [alookup_cons, ih]

theorem alookup_mem {α : Type} (m : List (String × α)) (k : String) (v : α)
    (h : alookup m k = some v) : (k, v) ∈ m := by
  induction m with
  | nil => simp [alookup] at h
  | cons p rest ih =>
      obtain ⟨k0, w⟩ := p
      rw [alookup_cons] at h
      by_cases h0 : k0 = k
      · subst h0
        simp only [eq_self_iff_true, if_true, Option.some.injEq] at h
        rw [← h]
        exact List.mem_cons_self _ _
      · rw [if_neg h0] at h
        exact List.mem_cons_of_mem _ (ih h)

/-! ### C1: normalization and the caller-supplied defaults -/

/-- Both branches of `applyDefaultsToRow` compute the same nullish chain
(a missing key reads as `undefined`, which the chain treats like `null`),
so the result is one uniform map over the columns. -/
theorem applyDefaultsToRow_eq (dv src : List (String × JSONValue)) (cols : List String) :
    applyDefaultsToRow dv src cols =
      cols.map (fun c => (c, nullishChain (alookup src c) (alookup dv c))) := by
  unfold applyDefaultsToRow
  apply List.map_congr_left
  intro c _
  by_cases hk : hasKey src c
  · simp [hk]
  · have hnone : alookup src c = none := by
      unfold hasKey at hk
      exact Option.not_isSome_iff_eq_none.mp (by simpa using hk)
    simp [hk, hnone]

theorem alookup_map_self (f : String → JSONValue) (cols : List String) (c : String)
    (h : c ∈ cols) :
    alookup (cols.map (fun x => (x, f x))) c = some (f c) := by
  induction cols with
  | nil => cases h
  | cons c0 cols ih =>
      simp only [List.map_cons, alookup_cons]
      by_cases hc : c0 = c
      · subst hc
        simp
      · have hmem : c ∈ cols := by
          rcases List.mem_cons.mp h with h' | h'
          · exact absurd h'.symm hc
          · exact h'
        simp [hc, ih hmem]

/-- The value `applyDefaultsToRow` assigns to a column, characterized
independently of whether the key is present. -/
theorem applyDefaultsToRow_lookup (dv src : List (String × JSONValue))
    (cols : List String) (c : String) (h : c ∈ cols) :
    alookup (applyDefaultsToRow dv src cols) c =
      some (nullishChain (alookup src c) (alookup dv c)) := by
  rw [applyDefaultsToRow_eq]
  exact alookup_map_self _ cols c h

theorem jbeq_eq_false {v w : JSONValue} (h : v ≠ w) : jbeq v w = false := by
  rw [← Bool.not_eq_true, jbeq_iff]
  exact h

/-- C1 (amended): for every record and every column list, a column whose key
is present in the record keeps the record's own value only when that value
is non-Null; a present Null is treated exactly like an absent key, so the
configured non-Null default is substituted for it, and Null results only
when neither a non-Null own value nor a non-Null default exists.  The
normalized row binds exactly the requested columns. -/
theorem c1_theorem :
    (∀ (dv src : List (String × JSONValue)) (cols : List String) (c : String),
      c ∈ cols →
      (∀ v, alookup src c = some v → v ≠ JSONValue.null →
          alookup (applyDefaultsToRow dv src cols) c = some v)
      ∧ (∀ d, (alookup src c = some JSONValue.null ∨ alookup src c = none) →
          alookup dv c = some d → d ≠ JSONValue.null →
          alookup (applyDefaultsToRow dv src cols) c = some d)
      ∧ ((alookup src c = some JSONValue.null ∨ alookup src c = none) →
          (alookup dv c = some JSONValue.null ∨ alookup dv c = none) →
          alookup (applyDefaultsToRow dv src cols) c = some JSONValue.null))
    ∧ (∀ (dv src : List (String × JSONValue)) (cols : List String),
        (applyDefaultsToRow dv src cols).map Prod.fst = cols) := by
  constructor
  · intro dv src cols c hc
    refine ⟨?_, ?_, ?_⟩
    · intro v hv hvn
      rw [applyDefaultsToRow_lookup dv src cols c hc, hv]
      simp [nullishChain, jbeq_eq_false hvn]
    · intro d hsrc hd hdn
      rw [applyDefaultsToRow_lookup dv src cols c hc, hd]
      rcases hsrc with hsrc | hsrc <;>
        simp [hsrc, nullishChain, jbeq_eq_false hdn, jbeq]
    · intro hsrc hdv
      rw [applyDefaultsToRow_lookup dv src cols c hc]
      rcases hsrc with hsrc | hsrc <;> rcases hdv with hdv | hdv <;>
        simp [hsrc, hdv, nullishChain, jbeq]
  · intro dv src cols
    rw [applyDefaultsToRow_eq, List.map_map]
    exact List.map_id'' (fun _ => rfl) cols

/-- C1 witness: on the spec's own example (`defaultValues = (status, active)`,
record `(id, 1)`), the id keeps its value and the absent status receives the
default. -/
theorem c1_witness :
    alookup (applyDefaultsToRow [("status", JSONValue.str "active")]
        [("id", JSONValue.num 1)] ["id", "status"]) "id" = some (JSONValue.num 1)
  ∧ alookup (applyDefaultsToRow [("status", JSONValue.str "active")]
        [("id", JSONValue.num 1)] ["id", "status"]) "status" = some (JSONValue.str "active") := by
  have h := c1_theorem
  constructor
  · exact (h.1 _ _ _ "id" (by decide)).1 (JSONValue.num 1) (by decide) (by decide)
  · exact (h.1 _ _ _ "status" (by decide)).2.1 (JSONValue.str "active")
      (Or.inr (by decide)) (by decide) (by decide)

/-- C1 counterexample: the claim says a present Null wins over the
caller-supplied default, but `sourceObject[col] ?? defaultValues[col] ?? null`
skips a present `null`, so the record `(a, Null)` under default `(a, "d")`
normalizes to the default `"d"`, not to Null. -/
theorem c1_counterexample :
    alookup (applyDefaultsToRow [("a", JSONValue.str "d")] [("a", JSONValue.null)] ["a"]) "a"
      = some (JSONValue.str "d")
  ∧ alookup (applyDefaultsToRow [("a", JSONValue.str "d")] [("a", JSONValue.null)] ["a"]) "a"
      ≠ some JSONValue.null := by
  constructor
  · decide
  · decide

/-! ### C9: resolution of values whose table is unregistered -/

/-- C9 (amended): for every object-like value that has no memoized reference,
when the resolved table name is absent from the registry, `resolveReference`
returns the text `null` (and, being a total function, never fails).  A
memoized value returns its cached reference before the table is ever
consulted, which is why the no-memo hypothesis is needed. -/
theorem c9_theorem (s : SCOLT) (v : JSONValue) (ctx : String)
    (hobj : objectLike v = true)
    (hmiss : alookup s.arrayReferenceCache (jsonStringify v) = none)
    (htbl : alookup s.tableRegistry (resolveTableName s ctx) = none) :
    resolveReference s v ctx = "null" := by
  unfold resolveReference
  simp [hobj, hmiss, htbl]

/-- The empty engine state produced by `initialize`. -/
def emptyState : SCOLT :=
  { tableRegistry := [], arrayReferenceCache := [], tableIndexCounters := [],
    rootLevelKeys := [], objectToIndexMap := [], defaultValues := [], tableStructure := [] }

/-- C9 witness: a fresh record under an unregistered context resolves to
`null`. -/
theorem c9_witness :
    resolveReference emptyState (JSONValue.obj [("id", JSONValue.num 1)]) "ghost" = "null" :=
  c9_theorem emptyState (JSONValue.obj [("id", JSONValue.num 1)]) "ghost"
    (by decide) (by decide) (by decide)

/-- A state whose memo cache already holds the primitive array `[1,2]`
(exactly what `processValue` stores for it) while no table is registered. -/
def c9state : SCOLT :=
  { tableRegistry := [], arrayReferenceCache := [("[1,2]", "[1,2]")], tableIndexCounters := [],
    rootLevelKeys := [], objectToIndexMap := [], defaultValues := [], tableStructure := [] }

/-- C9 counterexample: the claim says every object-like value whose table is
absent resolves to `null`, but a memoized array returns its cached bracket
literal even though its resolved table `@a` is not registered. -/
theorem c9_counterexample :
    objectLike (JSONValue.arr [JSONValue.num 1, JSONValue.num 2]) = true
  ∧ alookup c9state.tableRegistry (resolveTableName c9state "a") = none
  ∧ resolveReference c9state (JSONValue.arr [JSONValue.num 1, JSONValue.num 2]) "a" = "[1,2]"
  ∧ resolveReference c9state (JSONValue.arr [JSONValue.num 1, JSONValue.num 2]) "a" ≠ "null" := by
  refine ⟨by decide, by decide, by decide, by decide⟩

/-! ### C2: whole-table reference compaction -/

/-- The sequential check succeeds exactly on the list `0, 1, ..., n-1`. -/
theorem isSequentialFullTableReference_iff (l : List Nat) (n : Nat) :
    isSequentialFullTableReference l n = true ↔ l = List.range n := by
  unfold isSequentialFullTableReference
  simp only [Bool.and_eq_true, beq_iff_eq, List.all_eq_true]
  constructor
  · rintro ⟨hlen, hall⟩
    apply List.ext_getElem (by simp [hlen])
    intro i hi hir
    have hmem : (i, l[i]) ∈ l.enum := by
      have hlt : i < l.enum.length := by simpa [List.enum_length] using hi
      have := List.getElem_enum l i hlt
      exact this ▸ List.getElem_mem hlt
    have := hall _ hmem
    simp only [List.getElem_range]
    exact this
  · rintro rfl
    refine ⟨by simp, ?_⟩
    intro p hp
    obtain ⟨i, hi, hpe⟩ := List.mem_iff_getElem.mp hp
    rw [List.getElem_enum] at hpe
    subst hpe
    simp [List.getElem_range]

/-- Sorting ascending yields `0, 1, ..., n-1` exactly when the list holds
every index below `n` exactly once, in any order. -/
theorem insertionSort_eq_range_iff (l : List Nat) (n : Nat) :
    l.insertionSort (· ≤ ·) = List.range n ↔ l.Perm (List.range n) := by
  constructor
  · intro h
    exact (List.perm_insertionSort (· ≤ ·) l).symm.trans (h ▸ List.Perm.refl _)
  · intro h
    refine List.eq_of_perm_of_sorted ?_ (List.sorted_insertionSort (· ≤ ·) l)
      (List.sorted_le_range n)
    exact (List.perm_insertionSort (· ≤ ·) l).trans h

/-- C2 (amended): a `Rows(table, indices)` reference is rewritten to the
bare table name iff its index list contains every row index of that table
exactly once in ANY order — the code sorts the indices before the
sequential comparison, so a reordered full enumeration also compacts;
partial lists, duplicated indices and supersets-via-duplicates keep their
explicit indices.  The same per-reference rule is applied to every cached
array reference and to every cell of every stored row. -/
theorem c2_theorem :
    (∀ (idxs : List Nat) (n : Nat),
        isSequentialFullTableReference (idxs.insertionSort (· ≤ ·)) n = true ↔
          idxs.Perm (List.range n))
  ∧ (∀ (s : SCOLT) (ref tn : String) (idxs : List Nat) (t : TableData),
        parseTableRef ref = some (tn, idxs) →
        alookup s.tableRegistry tn = some t →
        compactReference s ref =
          (if idxs.Perm (List.range t.rows.length) then tn else ref))
  ∧ (∀ (s : SCOLT) (ref : String), parseTableRef ref = none → compactReference s ref = ref)
  ∧ (∀ s : SCOLT, (compactArrayReferences s).arrayReferenceCache =
        s.arrayReferenceCache.map (fun p => (p.1, compactReference s p.2)))
  ∧ (∀ s : SCOLT, (optimizeTableReferences s).tableRegistry =
        s.tableRegistry.map (fun p =>
          (p.1, { p.2 with rows := p.2.rows.map (fun row => row.map (fun cell =>
            if startsWithAt cell then compactReference s cell else cell)) }))) := by
  refine ⟨?_, ?_, ?_, fun _ => rfl, fun _ => rfl⟩
  · intro idxs n
    rw [isSequentialFullTableReference_iff]
    exact insertionSort_eq_range_iff idxs n
  · intro s ref tn idxs t hparse ht
    unfold compactReference
    rw [hparse]
    simp only [ht]
    by_cases hperm : idxs.Perm (List.range t.rows.length)
    · rw [if_pos hperm]
      have : isSequentialFullTableReference (idxs.insertionSort (· ≤ ·)) t.rows.length = true := by
        rw [isSequentialFullTableReference_iff]
        exact (insertionSort_eq_range_iff idxs t.rows.length).mpr hperm
      simp [this]
    · rw [if_neg hperm]
      have : isSequentialFullTableReference (idxs.insertionSort (· ≤ ·)) t.rows.length = false := by
        rw [← Bool.not_eq_true]
        simp only [Bool.not_eq_true]
        rw [← Bool.not_eq_true, isSequentialFullTableReference_iff] at *
        intro hc
        exact hperm ((insertionSort_eq_range_iff idxs t.rows.length).mp hc)
      simp [this]
  · intro s ref hparse
    unfold compactReference
    rw [hparse]

/-- A two-row table used for the compaction examples. -/
def c2table : TableData :=
  { columns := ["a"], rows := [["1"], ["2"]],
    originalData := [JSONValue.obj [("a", JSONValue.num 1)],
      JSONValue.obj [("a", JSONValue.num 2)]] }

/-- A state holding a two-row table and a cached reference that lists both
rows in reversed order. -/
def c2state : SCOLT :=
  { tableRegistry := [("@t", c2table)],
    arrayReferenceCache := [("k", "@t[1,0]")], tableIndexCounters := [],
    rootLevelKeys := [], objectToIndexMap := [], defaultValues := [], tableStructure := [] }

/-- C2 counterexample: the reference `@t[1,0]` enumerates the two rows of
`@t` out of order — the claim says any reordered index list is left with
explicit indices — yet the compaction pass rewrites it to the bare name. -/
theorem c2_counterexample :
    parseTableRef "@t[1,0]" = some ("@t", [1, 0])
  ∧ [1, 0] ≠ List.range 2
  ∧ (compactArrayReferences c2state).arrayReferenceCache = [("k", "@t")] := by
  refine ⟨by decide, by decide, by decide⟩

/-- C2 witness: the amended rule evaluated at the reversed full enumeration
(compacts) and at a duplicated superset (keeps its indices). -/
theorem c2_witness :
    compactReference c2state "@t[1,0]" = "@t"
  ∧ compactReference c2state "@t[0,0,1]" = "@t[0,0,1]"
  ∧ isSequentialFullTableReference (([2, 0, 1] : List Nat).insertionSort (· ≤ ·)) 3 = true := by
  have h := c2_theorem
  refine ⟨?_, ?_, ?_⟩
  · rw [h.2.1 c2state "@t[1,0]" "@t" [1, 0] c2table (by decide) (by decide)]
    rw [if_pos (by decide)]
  · rw [h.2.1 c2state "@t[0,0,1]" "@t" [0, 0, 1] c2table (by decide) (by decide)]
    rw [if_neg (by decide)]
  · exact (h.1 [2, 0, 1] 3).mpr (by decide)

/-! ### C6: the column ordering rule -/

theorem listCompare_self : ∀ a, listCompare a a = Ordering.eq
  | [] => rfl
  | c :: cs => by simp [listCompare, Nat.lt_irrefl, listCompare_self cs]

theorem char_eq_of_toNat_eq {c d : Char} (h : c.toNat = d.toNat) : c = d :=
  Char.ext (UInt32.toNat.inj h)

theorem listCompare_eq_iff : ∀ a b, listCompare a b = Ordering.eq ↔ a = b
  | [], [] => by simp [listCompare]
  | [], _ :: _ => by simp [listCompare]
  | _ :: _, [] => by simp [listCompare]
  | c :: cs, d :: ds => by
      unfold listCompare
      rcases Nat.lt_trichotomy c.toNat d.toNat with h | h | h
      · have hne : c ≠ d := fun he => absurd (he ▸ h) (Nat.lt_irrefl _)
        simp [h, hne]
      · have hcd : c = d := char_eq_of_toNat_eq h
        have hnlt : ¬ c.toNat < d.toNat := by omega
        simp [hnlt, h, hcd, listCompare_eq_iff cs ds]
      · have hne : c ≠ d := fun he => absurd (he ▸ h) (Nat.lt_irrefl _)
        have hnlt : ¬ c.toNat < d.toNat := by omega
        have hneq : ¬ c.toNat = d.toNat := by omega
        simp [hnlt, hneq, hne]

theorem listCompare_swap : ∀ a b, listCompare b a = (listCompare a b).swap
  | [], [] => rfl
  | [], _ :: _ => rfl
  | _ :: _, [] => rfl
  | c :: cs, d :: ds => by
      unfold listCompare
      rcases Nat.lt_trichotomy c.toNat d.toNat with h | h | h
      · have hnlt : ¬ d.toNat < c.toNat := by omega
        have hneq : ¬ d.toNat = c.toNat := by omega
        simp [h, hnlt, hneq, Ordering.swap]
      · have hcd : c = d := char_eq_of_toNat_eq h
        subst hcd
        simp [Nat.lt_irrefl, listCompare_swap cs ds]
      · have hnlt : ¬ c.toNat < d.toNat := by omega
        have hneq : ¬ c.toNat = d.toNat := by omega
        simp [h, hnlt, hneq, Ordering.swap]

theorem listCompare_lt_trans :
    ∀ a b c, listCompare a b = Ordering.lt → listCompare b c = Ordering.lt →
      listCompare a c = Ordering.lt
  | [], [], _, hab, _ => by simp [listCompare] at hab
  | _ :: _, [], _, hab, _ => by simp [listCompare] at hab
  | _, _ :: _, [], _, hbc => by simp [listCompare] at hbc
  | [], _ :: _, _ :: _, _, _ => by simp [listCompare]
  | x :: xs, y :: ys, z :: zs, hab, hbc => by
      unfold listCompare at hab hbc ⊢
      rcases Nat.lt_trichotomy x.toNat y.toNat with h1 | h1 | h1
      · rcases Nat.lt_trichotomy y.toNat z.toNat with h2 | h2 | h2
        · have h3 : x.toNat < z.toNat := Nat.lt_trans h1 h2
          simp [h3]
        · have h3 : x.toNat < z.toNat := h2 ▸ h1
          simp [h3]
        · have hnlt : ¬ y.toNat < z.toNat := by omega
          have hneq : ¬ y.toNat = z.toNat := by omega
          simp [hnlt, hneq] at hbc
      · rcases Nat.lt_trichotomy y.toNat z.toNat with h2 | h2 | h2
        · have h3 : x.toNat < z.toNat := h1 ▸ h2
          simp [h3]
        · have hnlt1 : ¬ x.toNat < y.toNat := by omega
          have hnlt2 : ¬ y.toNat < z.toNat := by omega
          have h3 : x.toNat = z.toNat := by omega
          have h3nlt : ¬ x.toNat < z.toNat := by omega
          simp [hnlt1, h1] at hab
          simp [hnlt2, h2] at hbc
          simp [h3nlt, h3]
          exact listCompare_lt_trans xs ys zs hab hbc
        · have hnlt : ¬ y.toNat < z.toNat := by omega
          have hneq : ¬ y.toNat = z.toNat := by omega
          simp [hnlt, hneq] at hbc
      · have hnlt : ¬ x.toNat < y.toNat := by omega
        have hneq : ¬ x.toNat = y.toNat := by omega
        simp [hnlt, hneq] at hab

theorem ordering_ne_gt_iff (o : Ordering) : o ≠ Ordering.gt ↔ o = Ordering.lt ∨ o = Ordering.eq := by
  cases o <;> simp

theorem listCompare_ne_gt_trans {a b c : List Char}
    (hab : listCompare a b ≠ Ordering.gt) (hbc : listCompare b c ≠ Ordering.gt) :
    listCompare a c ≠ Ordering.gt := by
  rcases (ordering_ne_gt_iff _).mp hab with h1 | h1 <;>
    rcases (ordering_ne_gt_iff _).mp hbc with h2 | h2
  · rw [ordering_ne_gt_iff]
    exact Or.inl (listCompare_lt_trans a b c h1 h2)
  · have : b = c := (listCompare_eq_iff b c).mp h2
    subst this
    rw [ordering_ne_gt_iff]
    exact Or.inl h1
  · have : a = b := (listCompare_eq_iff a b).mp h1
    subst this
    rw [ordering_ne_gt_iff]
    exact Or.inl h2
  · have hab' : a = b := (listCompare_eq_iff a b).mp h1
    have hbc' : b = c := (listCompare_eq_iff b c).mp h2
    subst hab'; subst hbc'
    rw [ordering_ne_gt_iff]
    exact Or.inr (listCompare_self a)

theorem char_lt_iff_toNat_lt {c d : Char} : c < d ↔ c.toNat < d.toNat := Iff.rfl

theorem listCompare_lt_iff_lex : ∀ a b, listCompare a b = Ordering.lt ↔ List.Lex (· < ·) a b
  | [], [] => ⟨fun h => by simp [listCompare] at h, fun h => by cases h⟩
  | [], _ :: _ => ⟨fun _ => List.Lex.nil, fun _ => rfl⟩
  | _ :: _, [] => ⟨fun h => by simp [listCompare] at h, fun h => by cases h⟩
  | c :: cs, d :: ds => by
      unfold listCompare
      rcases Nat.lt_trichotomy c.toNat d.toNat with h | h | h
      · have hlt : c < d := char_lt_iff_toNat_lt.mpr h
        simp only [h, if_true]
        constructor
        · intro _
          exact List.Lex.rel hlt
        · intro _
          trivial
      · have hcd : c = d := char_eq_of_toNat_eq h
        subst hcd
        have hnlt : ¬ c.toNat < c.toNat := Nat.lt_irrefl _
        simp only [hnlt, if_false, beq_self_eq_true, if_true]
        rw [listCompare_lt_iff_lex cs ds]
        constructor
        · exact fun h' => List.Lex.cons h'
        · intro h'
          cases h' with
          | rel hr => exact absurd hr (lt_irrefl c)
          | cons ht => exact ht
      · have hnlt : ¬ c.toNat < d.toNat := by omega
        have hneq : (c.toNat == d.toNat) = false := by simp; omega
        simp only [hnlt, if_false, hneq]
        constructor
        · intro h'
          cases h'
        · intro h'
          cases h' with
          | rel hr => exact absurd (char_lt_iff_toNat_lt.mp hr) (by omega)
          | cons _ => simp at hneq

instance : IsTrans String colLe := by
  constructor
  intro a b c hab hbc
  unfold colLe colCompare at *
  rcases h1 : priorityColumns.indexOf? a with _ | i <;>
    rcases h2 : priorityColumns.indexOf? b with _ | j <;>
      rcases h3 : priorityColumns.indexOf? c with _ | k <;>
        simp_all [strCompare]
  · exact listCompare_ne_gt_trans hab hbc
  · have hij : i ≤ j := Nat.compare_ne_gt.mp hab
    have hjk : j ≤ k := Nat.compare_ne_gt.mp hbc
    exact Nat.compare_ne_gt.mpr (Nat.le_trans hij hjk)

instance : IsTotal String colLe := by
  constructor
  intro a b
  unfold colLe colCompare
  rcases h1 : priorityColumns.indexOf? a with _ | i <;>
    rcases h2 : priorityColumns.indexOf? b with _ | j <;> simp_all [strCompare]
  · rcases ho : listCompare a.data b.data with _ | _ | _
    · exact Or.inl (by simp)
    · exact Or.inl (by simp)
    · refine Or.inr ?_
      have hswap := listCompare_swap a.data b.data
      rw [ho] at hswap
      rw [hswap]
      simp [Ordering.swap]
  · rcases Nat.le_total i j with h | h
    · exact Or.inl (Nat.compare_ne_gt.mpr h)
    · exact Or.inr (Nat.compare_ne_gt.mpr h)

theorem indexOf?_isSome_of_mem {l : List String} {a : String} (h : a ∈ l) :
    (l.indexOf? a).isSome := by
  induction l with
  | nil => cases h
  | cons x xs ih =>
      rw [List.indexOf?_cons]
      by_cases hx : x = a
      · simp [hx]
      · have : a ∈ xs := by
          rcases List.mem_cons.mp h with h' | h'
          · exact absurd h'.symm hx
          · exact h'
        simp only [beq_iff_eq, hx, if_false]
        simpa using ih this

theorem indexOf?_eq_none_of_not_mem {l : List String} {a : String} (h : a ∉ l) :
    l.indexOf? a = none :=
  List.indexOf?_eq_none_iff.mpr (fun x hx => by
    simp only [beq_iff_eq]
    intro he
    exact h (he ▸ hx))

/-- The merged-and-sorted column list a table ends up with after
`mergeTableColumns`, whether or not a rebuild fires. -/
theorem mergeTableColumns_columns (s : SCOLT) (tn : String) (newCols : List String)
    (t : TableData) (ht : alookup s.tableRegistry tn = some t) :
    ∃ t', alookup (mergeTableColumns s tn newCols).tableRegistry tn = some t' ∧
      t'.columns = sortColumnNames
        (t.columns ++ newCols.filter (fun c => !(t.columns.contains c))) := by
  unfold mergeTableColumns
  rw [ht]
  by_cases hch : hasColumnsChanged t.columns
      (sortColumnNames (t.columns ++ newCols.filter (fun c => !(t.columns.contains c))))
  · simp only [hch, if_true]
    unfold rebuildTableWithNewColumns
    rw [ht]
    exact ⟨_, alookup_aset_self _ _ _, rfl⟩
  · simp only [hch, if_false]
    refine ⟨t, ht, ?_⟩
    unfold hasColumnsChanged at hch
    simp only [Bool.or_eq_true, bne_iff_ne, not_or, not_not] at hch
    exact hch.2.symm

/-- C6: the computed schema order places the priority columns `id`, `name`,
`type`, `key` first, in that literal priority order when present, and orders
all remaining columns lexicographically; `{b, id, a, name}` renders as
`id,name,a,b`; and the very same `sortColumnNames` result is what a table's
columns equal after every schema merge (whether or not a rebuild fires). -/
theorem c6_theorem :
    (∀ cols : List String, (sortColumnNames cols).Perm cols)
  ∧ (∀ cols : List String, List.Sorted colLe (sortColumnNames cols))
  ∧ (∀ a b : String, a ∈ priorityColumns → b ∉ priorityColumns →
      colLe a b ∧ ¬ colLe b a)
  ∧ (∀ (a b : String) (i j : Nat), priorityColumns.indexOf? a = some i →
      priorityColumns.indexOf? b = some j → (colLe a b ↔ i ≤ j))
  ∧ (∀ a b : String, a ∉ priorityColumns → b ∉ priorityColumns →
      (colLe a b ↔ (List.Lex (· < ·) a.toList b.toList ∨ a = b)))
  ∧ sortColumnNames ["b", "id", "a", "name"] = ["id", "name", "a", "b"]
  ∧ (∀ (s : SCOLT) (tn : String) (newCols : List String) (t : TableData),
      alookup s.tableRegistry tn = some t →
      ∃ t', alookup (mergeTableColumns s tn newCols).tableRegistry tn = some t' ∧
        t'.columns = sortColumnNames
          (t.columns ++ newCols.filter (fun c => !(t.columns.contains c)))) := by
  refine ⟨?_, ?_, ?_, ?_, ?_, by decide, mergeTableColumns_columns⟩
  · intro cols
    exact List.perm_insertionSort colLe cols
  · intro cols
    exact List.sorted_insertionSort colLe cols
  · intro a b ha hb
    have hia := indexOf?_isSome_of_mem ha
    have hib := indexOf?_eq_none_of_not_mem hb
    obtain ⟨i, hi⟩ := Option.isSome_iff_exists.mp hia
    constructor
    · unfold colLe colCompare
      rw [hi, hib]
      simp
    · unfold colLe colCompare
      rw [hi, hib]
      simp
  · intro a b i j hi hj
    unfold colLe colCompare
    rw [hi, hj]
    exact Nat.compare_ne_gt
  · intro a b ha hb
    have hia := indexOf?_eq_none_of_not_mem ha
    have hib := indexOf?_eq_none_of_not_mem hb
    unfold colLe colCompare
    rw [hia, hib]
    simp only [strCompare]
    rw [ordering_ne_gt_iff]
    constructor
    · rintro (h | h)
      · exact Or.inl ((listCompare_lt_iff_lex _ _).mp h)
      · refine Or.inr ?_
        have h2 := (listCompare_eq_iff _ _).mp h
        cases a
        cases b
        congr 1
    · rintro (h | h)
      · exact Or.inl ((listCompare_lt_iff_lex _ _).mpr h)
      · subst h
        exact Or.inr (listCompare_self _)

/-- C6 witness: the ordering rule instantiated concretely — `id` sorts
before the non-priority `alpha`, `id` before `name`, plain `alpha`/`beta`
compare lexicographically, and merging column `a` into a table with columns
`id, b` yields the schema `id, a, b`. -/
theorem c6_witness :
    (colLe "id" "alpha" ∧ ¬ colLe "alpha" "id")
  ∧ colLe "id" "name"
  ∧ colLe "alpha" "beta"
  ∧ (∃ t', alookup (mergeTableColumns
      { emptyState with tableRegistry :=
          [("@t", { columns := ["id", "b"], rows := [["1", "2"]],
                    originalData := [JSONValue.obj [("id", JSONValue.num 1), ("b", JSONValue.num 2)]] })] }
      "@t" ["a"]).tableRegistry "@t" = some t' ∧ t'.columns = ["id", "a", "b"]) := by
  have h := c6_theorem
  refine ⟨h.2.2.1 "id" "alpha" (by decide) (by decide), ?_, ?_, ?_⟩
  · exact (h.2.2.2.1 "id" "name" 0 1 (by decide) (by decide)).mpr (by decide)
  · exact (h.2.2.2.2.1 "alpha" "beta" (by decide) (by decide)).mpr
      (Or.inl (by decide))
  · obtain ⟨t', hl, hc⟩ := h.2.2.2.2.2.2
      { emptyState with tableRegistry :=
          [("@t", { columns := ["id", "b"], rows := [["1", "2"]],
                    originalData := [JSONValue.obj [("id", JSONValue.num 1), ("b", JSONValue.num 2)]] })] }
      "@t" ["a"]
      { columns := ["id", "b"], rows := [["1", "2"]],
        originalData := [JSONValue.obj [("id", JSONValue.num 1), ("b", JSONValue.num 2)]] }
      (by decide)
    refine ⟨t', hl, ?_⟩
    rw [hc]
    decide

/-! ### C5 / C10: arrays rendered as bracket literals -/

/-- The element renderer of the primitive-array path (scolt.ts lines
162-169): a depth-one sub-list is bracketed with its elements primitively
serialized, anything else goes through `serializePrimitive` (whose JS
string conversion flattens deeper lists without brackets). -/
def primitiveItemRender : JSONValue → String
  | JSONValue.arr inner => "[" ++ joinSep "," (inner.map serializePrimitive) ++ "]"
  | item => serializePrimitive item

/-- A list whose first element is not a record is serialized as a bracket
literal and nothing but the memo cache changes. -/
theorem processValue_primitive_array (fuel : Nat) (s : SCOLT) (v : JSONValue)
    (rest : List JSONValue) (ctx : String)
    (hrec : isRecord v = false)
    (hmiss : alookup s.arrayReferenceCache (jsonStringify (JSONValue.arr (v :: rest))) = none) :
    processValue (fuel + 1) s (JSONValue.arr (v :: rest)) ctx =
      { s with arrayReferenceCache := aset s.arrayReferenceCache (jsonStringify (JSONValue.arr (v :: rest))) ("[" ++ joinSep "," ((v :: rest).map primitiveItemRender) ++ "]") } := by
  have hk : hasKey s.arrayReferenceCache (jsonStringify (JSONValue.arr (v :: rest))) = false := by
    unfold hasKey
    rw [hmiss]
    rfl
  simp only [processValue, hk, hrec, Bool.not_false, if_true, Bool.false_eq_true, if_false]
  congr 4
  · congr 1
    apply List.map_congr_left
    intro item _
    cases item <;> rfl

/-- An array of key-less records: the record path is entered but no column
is extracted, so the array falls back to primitive serialization and no
table is touched. -/
theorem processValue_no_columns (fuel : Nat) (s : SCOLT) (fs0 : List (String × JSONValue))
    (rest : List JSONValue) (ctx : String)
    (hmiss : alookup s.arrayReferenceCache
        (jsonStringify (JSONValue.arr (JSONValue.obj fs0 :: rest))) = none)
    (hcols : extractColumnNames (JSONValue.obj fs0 :: rest) = []) :
    processValue (fuel + 1) s (JSONValue.arr (JSONValue.obj fs0 :: rest)) ctx =
      { s with arrayReferenceCache := aset s.arrayReferenceCache (jsonStringify (JSONValue.arr (JSONValue.obj fs0 :: rest))) ("[" ++ joinSep "," ((JSONValue.obj fs0 :: rest).map serializePrimitive) ++ "]") } := by
  have hk : hasKey s.arrayReferenceCache
      (jsonStringify (JSONValue.arr (JSONValue.obj fs0 :: rest))) = false := by
    unfold hasKey
    rw [hmiss]
    rfl
  simp only [processValue, hk, hcols, isRecord, Bool.not_true, Bool.false_eq_true, if_false,
    List.isEmpty_nil, if_true]

theorem fields_fold_nil_iff (fs : List (String × JSONValue)) (acc : List String) :
    fs.foldl (fun acc p => if acc.contains p.1 then acc else acc ++ [p.1]) acc = [] ↔
      acc = [] ∧ fs = [] := by
  induction fs generalizing acc with
  | nil => simp
  | cons p fs ih =>
      simp only [List.foldl_cons, ih]
      constructor
      · rintro ⟨hstep, -⟩
        by_cases hc : acc.contains p.1
        · rw [if_pos hc] at hstep
          subst hstep
          simp at hc
        · rw [if_neg hc] at hstep
          exact absurd hstep (by simp)
      · rintro ⟨-, h⟩
        cases h

theorem collect_fold_nil_iff (xs : List JSONValue) (acc : List String) :
    xs.foldl (fun acc item =>
        match item with
        | JSONValue.obj fs =>
            fs.foldl (fun acc p => if acc.contains p.1 then acc else acc ++ [p.1]) acc
        | _ => acc) acc = [] ↔
      acc = [] ∧ ∀ x ∈ xs, ∀ fs, x = JSONValue.obj fs → fs = [] := by
  induction xs generalizing acc with
  | nil => simp
  | cons x xs ih =>
      rw [List.foldl_cons, ih]
      cases x with
      | obj fs =>
          rw [fields_fold_nil_iff]
          constructor
          · rintro ⟨⟨ha, hfs⟩, htail⟩
            subst hfs
            refine ⟨ha, ?_⟩
            intro y hy gs hg
            rcases List.mem_cons.mp hy with rfl | hy
            · cases hg
              rfl
            · exact htail y hy gs hg
          · rintro ⟨ha, hall⟩
            have hfs : fs = [] := hall (JSONValue.obj fs) (List.mem_cons_self _ _) fs rfl
            exact ⟨⟨ha, hfs⟩, fun y hy gs hg => hall y (List.mem_cons_of_mem _ hy) gs hg⟩
      | null =>
          constructor
          · rintro ⟨ha, ht⟩
            refine ⟨ha, ?_⟩
            intro y hy gs hg
            rcases List.mem_cons.mp hy with rfl | hy
            · simp at hg
            · exact ht y hy gs hg
          · rintro ⟨ha, hall⟩
            exact ⟨ha, fun y hy gs hg => hall y (List.mem_cons_of_mem _ hy) gs hg⟩
      | bool b =>
          constructor
          · rintro ⟨ha, ht⟩
            refine ⟨ha, ?_⟩
            intro y hy gs hg
            rcases List.mem_cons.mp hy with rfl | hy
            · simp at hg
            · exact ht y hy gs hg
          · rintro ⟨ha, hall⟩
            exact ⟨ha, fun y hy gs hg => hall y (List.mem_cons_of_mem _ hy) gs hg⟩
      | num n =>
          constructor
          · rintro ⟨ha, ht⟩
            refine ⟨ha, ?_⟩
            intro y hy gs hg
            rcases List.mem_cons.mp hy with rfl | hy
            · simp at hg
            · exact ht y hy gs hg
          · rintro ⟨ha, hall⟩
            exact ⟨ha, fun y hy gs hg => hall y (List.mem_cons_of_mem _ hy) gs hg⟩
      | str st =>
          constructor
          · rintro ⟨ha, ht⟩
            refine ⟨ha, ?_⟩
            intro y hy gs hg
            rcases List.mem_cons.mp hy with rfl | hy
            · simp at hg
            · exact ht y hy gs hg
          · rintro ⟨ha, hall⟩
            exact ⟨ha, fun y hy gs hg => hall y (List.mem_cons_of_mem _ hy) gs hg⟩
      | arr ys =>
          constructor
          · rintro ⟨ha, ht⟩
            refine ⟨ha, ?_⟩
            intro y hy gs hg
            rcases List.mem_cons.mp hy with rfl | hy
            · simp at hg
            · exact ht y hy gs hg
          · rintro ⟨ha, hall⟩
            exact ⟨ha, fun y hy gs hg => hall y (List.mem_cons_of_mem _ hy) gs hg⟩

theorem sortColumnNames_nil_iff (l : List String) : sortColumnNames l = [] ↔ l = [] := by
  constructor
  · intro h
    have hlen := (List.perm_insertionSort colLe l).length_eq
    rw [show List.insertionSort colLe l = sortColumnNames l from rfl, h] at hlen
    exact List.length_eq_zero.mp hlen.symm
  · rintro rfl
    rfl

theorem extractColumnNames_nil_iff (xs : List JSONValue) :
    extractColumnNames xs = [] ↔ ∀ x ∈ xs, ∀ fs, x = JSONValue.obj fs → fs = [] := by
  unfold extractColumnNames
  rw [sortColumnNames_nil_iff, collect_fold_nil_iff]
  simp

/-- The scenario input `[1,[2,3],[[4,5]]]`. -/
def c5input : JSONValue :=
  JSONValue.arr [JSONValue.num 1,
    JSONValue.arr [JSONValue.num 2, JSONValue.num 3],
    JSONValue.arr [JSONValue.arr [JSONValue.num 4, JSONValue.num 5]]]

/-- C5: for every list whose first element is a scalar, Null, or a list, the
whole list is rendered as a bracket literal (each element through the
primitive-array renderer, sub-lists recursively flattened) and no table is
created; in particular `[1,[2,3],[[4,5]]]` parses to the single bracket
literal `[1,[2,3],[4,5]]` with an empty table registry. -/
theorem c5_theorem :
    (∀ (fuel : Nat) (s : SCOLT) (v : JSONValue) (rest : List JSONValue) (ctx : String),
      isRecord v = false →
      alookup s.arrayReferenceCache (jsonStringify (JSONValue.arr (v :: rest))) = none →
      (processValue (fuel + 1) s (JSONValue.arr (v :: rest)) ctx).tableRegistry = s.tableRegistry
      ∧ alookup (processValue (fuel + 1) s (JSONValue.arr (v :: rest)) ctx).arrayReferenceCache
          (jsonStringify (JSONValue.arr (v :: rest)))
        = some ("[" ++ joinSep "," ((v :: rest).map primitiveItemRender) ++ "]"))
  ∧ parse c5input {} = "[1,[2,3],[4,5]]"
  ∧ (parseState c5input {}).tableRegistry = [] := by
  refine ⟨?_, by decide, by decide⟩
  intro fuel s v rest ctx hrec hmiss
  rw [processValue_primitive_array fuel s v rest ctx hrec hmiss]
  exact ⟨rfl, alookup_aset_self _ _ _⟩

/-- C5 witness: the general bracket-literal rule applied to the scenario
list itself, starting from the empty state. -/
theorem c5_witness :
    (processValue 1 emptyState c5input "root").tableRegistry = []
  ∧ alookup (processValue 1 emptyState c5input "root").arrayReferenceCache
      (jsonStringify c5input) = some "[1,[2,3],[4,5]]" := by
  have h := c5_theorem.1 0 emptyState (JSONValue.num 1)
    [JSONValue.arr [JSONValue.num 2, JSONValue.num 3],
     JSONValue.arr [JSONValue.arr [JSONValue.num 4, JSONValue.num 5]]]
    "root" (by decide) (by decide)
  exact ⟨h.1, h.2⟩

/-- C10: for every non-empty array whose first element is a record but whose
elements collectively contribute zero column keys, no table is created and
the array is cached as a bracket literal of primitively serialized elements;
the zero-column condition holds exactly when every record element is empty;
in particular `[{}]` parses to `[[object Object]]` with no table. -/
theorem c10_theorem :
    (∀ (fuel : Nat) (s : SCOLT) (fs0 : List (String × JSONValue)) (rest : List JSONValue)
        (ctx : String),
      alookup s.arrayReferenceCache
          (jsonStringify (JSONValue.arr (JSONValue.obj fs0 :: rest))) = none →
      extractColumnNames (JSONValue.obj fs0 :: rest) = [] →
      (processValue (fuel + 1) s (JSONValue.arr (JSONValue.obj fs0 :: rest)) ctx).tableRegistry
          = s.tableRegistry
      ∧ alookup (processValue (fuel + 1) s
            (JSONValue.arr (JSONValue.obj fs0 :: rest)) ctx).arrayReferenceCache
          (jsonStringify (JSONValue.arr (JSONValue.obj fs0 :: rest)))
        = some ("[" ++ joinSep "," ((JSONValue.obj fs0 :: rest).map serializePrimitive) ++ "]"))
  ∧ (∀ xs : List JSONValue,
      extractColumnNames xs = [] ↔ ∀ x ∈ xs, ∀ fs, x = JSONValue.obj fs → fs = [])
  ∧ parse (JSONValue.arr [JSONValue.obj []]) {} = "[[object Object]]"
  ∧ (parseState (JSONValue.arr [JSONValue.obj []]) {}).tableRegistry = [] := by
  refine ⟨?_, extractColumnNames_nil_iff, by decide, by decide⟩
  intro fuel s fs0 rest ctx hmiss hcols
  rw [processValue_no_columns fuel s fs0 rest ctx hmiss hcols]
  exact ⟨rfl, alookup_aset_self _ _ _⟩

/-- C10 witness: the zero-column rule applied to `[{}]` from the empty
state. -/
theorem c10_witness :
    (processValue 1 emptyState (JSONValue.arr [JSONValue.obj []]) "root").tableRegistry = []
  ∧ alookup (processValue 1 emptyState
        (JSONValue.arr [JSONValue.obj []]) "root").arrayReferenceCache
      (jsonStringify (JSONValue.arr [JSONValue.obj []])) = some "[[object Object]]"
  ∧ (extractColumnNames [JSONValue.obj []] = []) := by
  have h := c10_theorem.1 0 emptyState [] [] "root" (by decide) (by decide)
  exact ⟨h.1, h.2, (c10_theorem.2.1 [JSONValue.obj []]).mpr (by
    intro x hx fs hfs
    rcases List.mem_cons.mp hx with rfl | hx
    · cases hfs
      rfl
    · cases hx)⟩

/-! ### C3: schema merge preserves row order and identity -/

/-- C3: merging previously-unseen columns into an existing table triggers a
rebuild that keeps the stored source records untouched and in order, keeps
the number of rows (hence every earlier row's numeric index), re-renders row
i from the same source record that produced row i — against the state whose
table already carries the merged columns but still the old rows and old
dedup index — and recomputes the dedup index from the new canonical keys. -/
theorem c3_theorem (s : SCOLT) (tn : String) (newCols : List String) (t : TableData)
    (ht : alookup s.tableRegistry tn = some t)
    (hlen : t.rows.length = t.originalData.length)
    (hnew : ∃ c ∈ newCols, c ∉ t.columns) :
    ∃ t', alookup (mergeTableColumns s tn newCols).tableRegistry tn = some t'
      ∧ t'.originalData = t.originalData
      ∧ t'.rows.length = t.rows.length
      ∧ (∀ i (hi : i < t'.rows.length) (hi' : i < t.originalData.length),
          t'.rows.get ⟨i, hi⟩ =
            t'.columns.map (renderCell
              { s with tableRegistry := aset s.tableRegistry tn { t with columns := t'.columns } }
              (applyDefaultsToRow s.defaultValues
                (jsFields (t.originalData.get ⟨i, hi'⟩)) t'.columns)))
      ∧ alookup (mergeTableColumns s tn newCols).objectToIndexMap tn =
          some (((t.originalData.map (fun item =>
              generateCanonicalKey s.defaultValues
                (applyDefaultsToRow s.defaultValues (jsFields item) t'.columns)
                t'.columns)).enum).foldl (fun m p => aset m p.2 p.1) []) := by
  obtain ⟨c, hc, hcn⟩ := hnew
  have hfilter : c ∈ newCols.filter (fun c => !(t.columns.contains c)) := by
    rw [List.mem_filter]
    exact ⟨hc, by simp [hcn]⟩
  have hlonger : t.columns.length <
      (t.columns ++ newCols.filter (fun c => !(t.columns.contains c))).length := by
    rw [List.length_append]
    have : 0 < (newCols.filter (fun c => !(t.columns.contains c))).length :=
      List.length_pos.mpr (List.ne_nil_of_mem hfilter)
    omega
  have hsortlen :
      (sortColumnNames (t.columns ++ newCols.filter (fun c => !(t.columns.contains c)))).length =
      (t.columns ++ newCols.filter (fun c => !(t.columns.contains c))).length :=
    (List.perm_insertionSort colLe _).length_eq
  have hch : hasColumnsChanged t.columns
      (sortColumnNames (t.columns ++ newCols.filter (fun c => !(t.columns.contains c)))) = true := by
    unfold hasColumnsChanged
    have : t.columns.length ≠
        (sortColumnNames (t.columns ++ newCols.filter (fun c => !(t.columns.contains c)))).length := by
      rw [hsortlen]
      omega
    simp only [Bool.or_eq_true, bne_iff_ne, ne_eq]
    refine Or.inl ?_
    simpa using this
  unfold mergeTableColumns
  rw [ht]
  simp only [hch, if_true]
  unfold rebuildTableWithNewColumns
  rw [ht]
  simp only
  refine ⟨_, alookup_aset_self _ _ _, rfl, ?_, ?_, ?_⟩
  · simp only [List.length_map]
    omega
  · intro i hi hi'
    simp only [List.get_eq_getElem, List.getElem_map]
  · rw [alookup_aset_self]

/-- A one-row table over column `id` used for the merge examples. -/
def c3table : TableData :=
  { columns := ["id"], rows := [["1"]],
    originalData := [JSONValue.obj [("id", JSONValue.num 1)]] }

def c3state : SCOLT := { emptyState with tableRegistry := [("@t", c3table)] }

/-- C3 witness: merging the unseen column `b` into a one-row table keeps its
single source record and its single row (and hence its index 0). -/
theorem c3_witness :
    ∃ t', alookup (mergeTableColumns c3state "@t" ["b"]).tableRegistry "@t" = some t'
      ∧ t'.originalData = [JSONValue.obj [("id", JSONValue.num 1)]]
      ∧ t'.rows.length = 1 := by
  obtain ⟨t', h1, h2, h3, -, -⟩ :=
    c3_theorem c3state "@t" ["b"] c3table (by decide) (by decide)
      ⟨"b", by decide, by decide⟩
  refine ⟨t', h1, ?_, ?_⟩
  · rw [h2]
    rfl
  · rw [h3]
    rfl

/-! ### C7: per-table deduplication scope -/

theorem aset_aset {α : Type} (m : List (String × α)) (k : String) (a b : α) :
    aset (aset m k a) k b = aset m k b := by
  induction m with
  | nil => simp [aset]
  | cons p rest ih =>
      obtain ⟨k0, w⟩ := p
      by_cases h0 : k0 = k
      · subst h0
        simp [aset]
      · simp [aset, h0, ih]

theorem foldl_fixed {α β : Type} (f : α → β → α) (s : α) (l : List β)
    (h : ∀ x ∈ l, f s x = s) : l.foldl f s = s := by
  induction l with
  | nil => rfl
  | cons x xs ih =>
      rw [List.foldl_cons, h x (List.mem_cons_self _ _)]
      exact ih (fun y hy => h y (List.mem_cons_of_mem _ hy))

/-- The one-row table that registering a fresh flat record produces. -/
def freshTable (s : SCOLT) (fs : List (String × JSONValue)) (ctx : String) : TableData :=
  { columns := sortColumnNames (fs.map Prod.fst),
    rows := [(sortColumnNames (fs.map Prod.fst)).map (renderCell (createNewTable s (resolveTableName s ctx) (sortColumnNames (fs.map Prod.fst))) (applyDefaultsToRow s.defaultValues fs (sortColumnNames (fs.map Prod.fst))))],
    originalData := [JSONValue.obj fs] }

/-- The canonical key that row receives in the dedup index. -/
def freshRowKey (s : SCOLT) (fs : List (String × JSONValue)) : String :=
  generateCanonicalKey s.defaultValues
    (applyDefaultsToRow s.defaultValues fs (sortColumnNames (fs.map Prod.fst)))
    (sortColumnNames (fs.map Prod.fst))

/-- Processing a record all of whose field values are primitive, under a
context whose table does not exist yet: a fresh one-row table is created
and nothing else changes — in particular the memo cache and the
configuration are untouched. -/
theorem processValue_obj_fresh (fuel : Nat) (s : SCOLT) (fs : List (String × JSONValue))
    (ctx : String)
    (hflat : ∀ p ∈ fs, objectLike p.2 = false)
    (hmiss : alookup s.arrayReferenceCache (jsonStringify (JSONValue.obj fs)) = none)
    (htbl : alookup s.tableRegistry (resolveTableName s ctx) = none) :
    processValue (fuel + 1) s (JSONValue.obj fs) ctx =
      { s with
        tableRegistry := aset s.tableRegistry (resolveTableName s ctx) (freshTable s fs ctx)
        objectToIndexMap := aset s.objectToIndexMap (resolveTableName s ctx) [(freshRowKey s fs, 0)]
        tableIndexCounters := aset s.tableIndexCounters (resolveTableName s ctx) 1 } := by
  have hk : hasKey s.arrayReferenceCache (jsonStringify (JSONValue.obj fs)) = false := by
    unfold hasKey
    rw [hmiss]
    rfl
  have hreg : hasKey s.tableRegistry (resolveTableName s ctx) = false := by
    unfold hasKey
    rw [htbl]
    rfl
  simp only [processValue, hk, Bool.false_eq_true, if_false, hreg, Bool.not_false, if_true]
  rw [show alookup (createNewTable s (resolveTableName s ctx)
        (sortColumnNames (fs.map Prod.fst))).tableRegistry (resolveTableName s ctx) =
      some { columns := sortColumnNames (fs.map Prod.fst), rows := [], originalData := [] } by
    unfold createNewTable
    exact alookup_aset_self _ _ _]
  rw [foldl_fixed _ _ _ (by
    intro c _
    unfold nestedColumnStep
    cases halo : alookup fs c with
    | none => rfl
    | some nv =>
        have := hflat (c, nv) (alookup_mem _ _ _ halo)
        simp [halo, this])]
  rw [show alookup (createNewTable s (resolveTableName s ctx)
        (sortColumnNames (fs.map Prod.fst))).objectToIndexMap (resolveTableName s ctx) =
      some [] by
    unfold createNewTable
    exact alookup_aset_self _ _ _]
  simp only [Option.getD_some]
  rw [show hasKey ([] : List (String × Nat)) (generateCanonicalKey
      (createNewTable s (resolveTableName s ctx)
        (sortColumnNames (fs.map Prod.fst))).defaultValues
      (applyDefaultsToRow (createNewTable s (resolveTableName s ctx)
        (sortColumnNames (fs.map Prod.fst))).defaultValues fs
        (sortColumnNames (fs.map Prod.fst)))
      (sortColumnNames (fs.map Prod.fst))) = false from rfl]
  simp only [Bool.false_eq_true, if_false]
  unfold addRowToTable
  rw [show alookup (createNewTable s (resolveTableName s ctx)
        (sortColumnNames (fs.map Prod.fst))).tableRegistry (resolveTableName s ctx) =
      some { columns := sortColumnNames (fs.map Prod.fst), rows := [], originalData := [] } by
    unfold createNewTable
    exact alookup_aset_self _ _ _]
  rw [show alookup (createNewTable s (resolveTableName s ctx)
        (sortColumnNames (fs.map Prod.fst))).objectToIndexMap (resolveTableName s ctx) =
      some [] by
    unfold createNewTable
    exact alookup_aset_self _ _ _]
  simp only [createNewTable, aset_aset, Option.getD_some, List.nil_append, List.length_nil]
  rfl

theorem resolveTableName_of_empty (s : SCOLT) (ctx : String) (h : s.tableStructure = []) :
    resolveTableName s ctx = "@" ++ ctx := by
  unfold resolveTableName
  rw [h]
  rfl

theorem at_name_inj {a b : String} (h : ("@" ++ a : String) = "@" ++ b) : a = b := by
  cases a with
  | mk la =>
    cases b with
    | mk lb =>
      simp only [show ∀ (l : List Char), ("@" : String) ++ String.mk l = String.mk ('@' :: l)
        from fun l => rfl] at h
      injection h with h'
      injection h' with _ h''
      exact congrArg String.mk h''

/-- The record of the C7 scenario. -/
def c7record : JSONValue := JSONValue.obj [("id", JSONValue.num 1), ("name", JSONValue.str "x")]

/-- The C7 scenario input: the same record under the two context keys. -/
def c7input : JSONValue := JSONValue.obj [("manager", c7record), ("lead", c7record)]

/-- C7: deduplication is scoped per table — registering the same flat record
under two different context keys creates two distinct tables, each with its
own single row holding that record, never merged; in the scenario,
`{id:1,name:"x"}` under `manager` and `lead` yields `@manager` and `@lead`,
each with the single row `1,x`. -/
theorem c7_theorem :
    (∀ (fuel : Nat) (s : SCOLT) (fs : List (String × JSONValue)) (c1 c2 : String),
      (∀ p ∈ fs, objectLike p.2 = false) →
      s.tableStructure = [] →
      c1 ≠ c2 →
      alookup s.arrayReferenceCache (jsonStringify (JSONValue.obj fs)) = none →
      alookup s.tableRegistry ("@" ++ c1) = none →
      alookup s.tableRegistry ("@" ++ c2) = none →
      ("@" ++ c1 : String) ≠ ("@" ++ c2 : String) ∧
      ∃ t1 t2,
        alookup (processValue (fuel + 1)
            (processValue (fuel + 1) s (JSONValue.obj fs) c1)
            (JSONValue.obj fs) c2).tableRegistry ("@" ++ c1) = some t1
        ∧ alookup (processValue (fuel + 1)
            (processValue (fuel + 1) s (JSONValue.obj fs) c1)
            (JSONValue.obj fs) c2).tableRegistry ("@" ++ c2) = some t2
        ∧ t1.rows.length = 1 ∧ t2.rows.length = 1
        ∧ t1.originalData = [JSONValue.obj fs] ∧ t2.originalData = [JSONValue.obj fs])
  ∧ alookup (parseState c7input {}).tableRegistry "@manager" =
      some { columns := ["id", "name"], rows := [["1", "x"]], originalData := [c7record] }
  ∧ alookup (parseState c7input {}).tableRegistry "@lead" =
      some { columns := ["id", "name"], rows := [["1", "x"]], originalData := [c7record] } := by
  refine ⟨?_, by decide, by decide⟩
  intro fuel s fs c1 c2 hflat hts hc hmiss htbl1 htbl2
  have hne : ("@" ++ c1 : String) ≠ ("@" ++ c2 : String) := fun h => hc (at_name_inj h)
  have htn1 : resolveTableName s c1 = "@" ++ c1 := resolveTableName_of_empty s c1 hts
  have h1 := processValue_obj_fresh fuel s fs c1 hflat hmiss (by rw [htn1]; exact htbl1)
  rw [htn1] at h1
  have hts1 : (processValue (fuel + 1) s (JSONValue.obj fs) c1).tableStructure = [] := by
    rw [h1]
    exact hts
  have hcache1 : (processValue (fuel + 1) s (JSONValue.obj fs) c1).arrayReferenceCache =
      s.arrayReferenceCache := by
    rw [h1]
  have htn2 : resolveTableName (processValue (fuel + 1) s (JSONValue.obj fs) c1) c2 =
      "@" ++ c2 := resolveTableName_of_empty _ c2 hts1
  have htbl2' : alookup (processValue (fuel + 1) s (JSONValue.obj fs) c1).tableRegistry
      (resolveTableName (processValue (fuel + 1) s (JSONValue.obj fs) c1) c2) = none := by
    rw [htn2, h1]
    show alookup (aset s.tableRegistry ("@" ++ c1) _) ("@" ++ c2) = none
    rw [alookup_aset_ne _ _ _ _ (Ne.symm hne)]
    exact htbl2
  have h2 := processValue_obj_fresh fuel (processValue (fuel + 1) s (JSONValue.obj fs) c1)
    fs c2 hflat (by rw [hcache1]; exact hmiss) htbl2'
  rw [htn2] at h2
  refine ⟨hne, freshTable s fs c1,
    freshTable (processValue (fuel + 1) s (JSONValue.obj fs) c1) fs c2, ?_, ?_, rfl, rfl, rfl, rfl⟩
  · rw [h2]
    show alookup (aset (processValue (fuel + 1) s (JSONValue.obj fs) c1).tableRegistry
      ("@" ++ c2) _) ("@" ++ c1) = _
    rw [alookup_aset_ne _ _ _ _ hne, h1]
    show alookup (aset s.tableRegistry ("@" ++ c1) _) ("@" ++ c1) = _
    exact alookup_aset_self _ _ _
  · rw [h2]
    show alookup (aset (processValue (fuel + 1) s (JSONValue.obj fs) c1).tableRegistry
      ("@" ++ c2) _) ("@" ++ c2) = _
    exact alookup_aset_self _ _ _

/-- C7 witness: the same flat record registered under contexts `m` and `l`
from the empty state produces the two distinct one-row tables `@m` and
`@l`. -/
theorem c7_witness :
    ("@m" : String) ≠ "@l" ∧
    ∃ t1 t2,
      alookup (processValue 1 (processValue 1 emptyState
          (JSONValue.obj [("id", JSONValue.num 1)]) "m")
          (JSONValue.obj [("id", JSONValue.num 1)]) "l").tableRegistry "@m" = some t1
      ∧ alookup (processValue 1 (processValue 1 emptyState
          (JSONValue.obj [("id", JSONValue.num 1)]) "m")
          (JSONValue.obj [("id", JSONValue.num 1)]) "l").tableRegistry "@l" = some t2
      ∧ t1.rows.length = 1 ∧ t2.rows.length = 1
      ∧ t1.originalData = [JSONValue.obj [("id", JSONValue.num 1)]]
      ∧ t2.originalData = [JSONValue.obj [("id", JSONValue.num 1)]] :=
  c7_theorem.1 0 emptyState [("id", JSONValue.num 1)] "m" "l"
    (by decide) (by decide) (by decide) (by decide) (by decide) (by decide)

/-! ### C4: dedup idempotence inside one array -/

theorem nestedColumnStep_flat (rec : SCOLT → JSONValue → String → SCOLT)
    (fields : List (String × JSONValue)) (hflat : ∀ p ∈ fields, objectLike p.2 = false)
    (s : SCOLT) (c : String) : nestedColumnStep rec fields s c = s := by
  unfold nestedColumnStep
  cases halo : alookup fields c with
  | none => rfl
  | some nv =>
      have := hflat (c, nv) (alookup_mem _ _ _ halo)
      simp [this]

theorem foldl_nestedColumnStep_flat (rec : SCOLT → JSONValue → String → SCOLT)
    (fields : List (String × JSONValue)) (hflat : ∀ p ∈ fields, objectLike p.2 = false)
    (s : SCOLT) (cols : List String) :
    cols.foldl (nestedColumnStep rec fields) s = s :=
  foldl_fixed _ _ _ (fun c _ => nestedColumnStep_flat rec fields hflat s c)

theorem fields_fold_mem {fs : List (String × JSONValue)} {acc : List String} {x : String}
    (h : x ∈ acc) :
    x ∈ fs.foldl (fun acc p => if acc.contains p.1 then acc else acc ++ [p.1]) acc := by
  induction fs generalizing acc with
  | nil => exact h
  | cons p fs ih =>
      rw [List.foldl_cons]
      by_cases hc : acc.contains p.1
      · rw [if_pos hc]
        exact ih h
      · rw [if_neg hc]
        exact ih (List.mem_append_left _ h)

theorem fields_fold_key_mem {fs : List (String × JSONValue)} {acc : List String}
    {p : String × JSONValue} (h : p ∈ fs) :
    p.1 ∈ fs.foldl (fun acc p => if acc.contains p.1 then acc else acc ++ [p.1]) acc := by
  induction fs generalizing acc with
  | nil => cases h
  | cons q fs ih =>
      rw [List.foldl_cons]
      rcases List.mem_cons.mp h with rfl | h
      · by_cases hc : acc.contains p.1
        · rw [if_pos hc]
          exact fields_fold_mem (by simpa using hc)
        · rw [if_neg hc]
          exact fields_fold_mem (List.mem_append_right _ (by simp))
      · exact ih h

theorem fields_fold_stable {fs : List (String × JSONValue)} {acc : List String}
    (h : ∀ p ∈ fs, acc.contains p.1) :
    fs.foldl (fun acc p => if acc.contains p.1 then acc else acc ++ [p.1]) acc = acc := by
  induction fs with
  | nil => rfl
  | cons p fs ih =>
      rw [List.foldl_cons, if_pos (h p (List.mem_cons_self _ _))]
      exact ih (fun q hq => h q (List.mem_cons_of_mem _ hq))

/-- Extracting columns from N+1 copies of one record collects the same keys
as from the record alone. -/
theorem extractColumnNames_replicate (n : Nat) (fs : List (String × JSONValue)) :
    extractColumnNames (List.replicate (n + 1) (JSONValue.obj fs)) =
      extractColumnNames [JSONValue.obj fs] := by
  unfold extractColumnNames
  congr 1
  have hstable : ∀ m, (List.replicate m (JSONValue.obj fs)).foldl
      (fun acc item =>
        match item with
        | JSONValue.obj fs =>
            fs.foldl (fun acc p => if acc.contains p.1 then acc else acc ++ [p.1]) acc
        | _ => acc)
      (fs.foldl (fun acc p => if acc.contains p.1 then acc else acc ++ [p.1]) []) =
      fs.foldl (fun acc p => if acc.contains p.1 then acc else acc ++ [p.1]) [] := by
    intro m
    induction m with
    | zero => rfl
    | succ k ih =>
        rw [List.replicate_succ, List.foldl_cons]
        rw [show (match JSONValue.obj fs with
          | JSONValue.obj gs =>
              gs.foldl (fun acc p => if acc.contains p.1 then acc else acc ++ [p.1])
                (fs.foldl (fun acc p => if acc.contains p.1 then acc else acc ++ [p.1]) [])
          | _ => (fs.foldl (fun acc p => if acc.contains p.1 then acc else acc ++ [p.1]) [])) =
          fs.foldl (fun acc p => if acc.contains p.1 then acc else acc ++ [p.1])
            (fs.foldl (fun acc p => if acc.contains p.1 then acc else acc ++ [p.1]) []) from rfl]
        rw [fields_fold_stable (fun p hp => by
          have := @fields_fold_key_mem _ ([] : List String) _ hp
          simpa using this)]
        exact ih
  rw [List.replicate_succ, List.foldl_cons]
  exact hstable n

theorem foldl_replicate_fixed {α β : Type} (f : α × List Nat → β → α × List Nat)
    (s : α) (r : β) (h : ∀ idxs, f (s, idxs) r = (s, idxs ++ [0])) :
    ∀ (k : Nat) (idxs : List Nat),
      (List.replicate k r).foldl f (s, idxs) = (s, idxs ++ List.replicate k 0) := by
  intro k
  induction k with
  | zero => intro idxs; simp
  | succ m ih =>
      intro idxs
      rw [List.replicate_succ, List.foldl_cons, h idxs, ih (idxs ++ [0])]
      rw [List.append_assoc, List.replicate_succ]
      rfl

/-- The table created by the first element of a fresh homogeneous array. -/
def arrayFreshTable (s : SCOLT) (tn : String) (cols : List String)
    (fs : List (String × JSONValue)) : TableData :=
  { columns := cols,
    rows := [cols.map (renderCell (createNewTable s tn cols) (applyDefaultsToRow s.defaultValues fs cols))],
    originalData := [JSONValue.obj fs] }

/-- Its canonical key in the dedup index. -/
def arrayRowKey (s : SCOLT) (cols : List String) (fs : List (String × JSONValue)) : String :=
  generateCanonicalKey s.defaultValues (applyDefaultsToRow s.defaultValues fs cols) cols

/-- The engine state after that first row is appended. -/
def arrayFreshState (s : SCOLT) (tn : String) (cols : List String)
    (fs : List (String × JSONValue)) : SCOLT :=
  { s with tableRegistry := aset s.tableRegistry tn (arrayFreshTable s tn cols fs)
           objectToIndexMap := aset s.objectToIndexMap tn [(arrayRowKey s cols fs, 0)]
           tableIndexCounters := aset s.tableIndexCounters tn 1 }

/-- First element of a fresh array: a new row with index 0 is appended. -/
theorem arrayItemStep_fresh (rec : SCOLT → JSONValue → String → SCOLT) (s : SCOLT)
    (tn : String) (cols : List String) (fs : List (String × JSONValue)) (idxs : List Nat)
    (hflat : ∀ p ∈ fs, objectLike p.2 = false) :
    arrayItemStep rec tn cols (createNewTable s tn cols, idxs) (JSONValue.obj fs) =
      (arrayFreshState s tn cols fs, idxs ++ [0]) := by
  unfold arrayItemStep
  simp only [jsFields]
  rw [foldl_nestedColumnStep_flat rec fs hflat _ cols]
  rw [show alookup (createNewTable s tn cols).objectToIndexMap tn = some [] by
    unfold createNewTable
    exact alookup_aset_self _ _ _]
  simp only [Option.getD_some]
  rw [show alookup ([] : List (String × Nat)) (generateCanonicalKey
      (createNewTable s tn cols).defaultValues
      (applyDefaultsToRow (createNewTable s tn cols).defaultValues fs cols) cols) = none
    from rfl]
  unfold addRowToTable
  rw [show alookup (createNewTable s tn cols).tableRegistry tn =
      some { columns := cols, rows := [], originalData := [] } by
    unfold createNewTable
    exact alookup_aset_self _ _ _]
  rw [show alookup (createNewTable s tn cols).objectToIndexMap tn = some [] by
    unfold createNewTable
    exact alookup_aset_self _ _ _]
  simp only [createNewTable, aset_aset, Option.getD_some, List.nil_append, List.length_nil]
  rfl

/-- Every later identical element deduplicates to row index 0 and leaves
the state untouched. -/
theorem arrayItemStep_dedup (rec : SCOLT → JSONValue → String → SCOLT) (s : SCOLT)
    (tn : String) (cols : List String) (fs : List (String × JSONValue)) (idxs : List Nat)
    (hflat : ∀ p ∈ fs, objectLike p.2 = false) :
    arrayItemStep rec tn cols (arrayFreshState s tn cols fs, idxs) (JSONValue.obj fs) =
      (arrayFreshState s tn cols fs, idxs ++ [0]) := by
  unfold arrayItemStep
  simp only [jsFields]
  rw [foldl_nestedColumnStep_flat rec fs hflat _ cols]
  rw [show alookup (arrayFreshState s tn cols fs).objectToIndexMap tn =
      some [(arrayRowKey s cols fs, 0)] by
    unfold arrayFreshState
    exact alookup_aset_self _ _ _]
  simp only [Option.getD_some]
  rw [show alookup [(arrayRowKey s cols fs, 0)] (generateCanonicalKey
      (arrayFreshState s tn cols fs).defaultValues
      (applyDefaultsToRow (arrayFreshState s tn cols fs).defaultValues fs cols) cols) =
      some 0 by
    show alookup [(arrayRowKey s cols fs, 0)] (arrayRowKey s cols fs) = some 0
    simp [alookup]]

/-- The C4 scenario input: three identical records inside one array. -/
def c4input : JSONValue := JSONValue.obj [("users", JSONValue.arr [
  JSONValue.obj [("id", JSONValue.num 1), ("role", JSONValue.str "admin")],
  JSONValue.obj [("id", JSONValue.num 1), ("role", JSONValue.str "admin")],
  JSONValue.obj [("id", JSONValue.num 1), ("role", JSONValue.str "admin")]])]

/-- C4: an array of N+1 identical flat records processed under one fresh
context creates exactly one table row, and the array's cached reference
lists that single row index N+1 times; the scenario input yields the single
line `#users{id,role}: 1,admin`. -/
theorem c4_theorem :
    (∀ (fuel : Nat) (s : SCOLT) (fs : List (String × JSONValue)) (n : Nat) (ctx : String),
      fs ≠ [] →
      (∀ p ∈ fs, objectLike p.2 = false) →
      alookup s.arrayReferenceCache
        (jsonStringify (JSONValue.arr (List.replicate (n + 1) (JSONValue.obj fs)))) = none →
      alookup s.tableRegistry (resolveTableName s ctx) = none →
      ∃ t, alookup (processValue (fuel + 1) s
              (JSONValue.arr (List.replicate (n + 1) (JSONValue.obj fs))) ctx).tableRegistry
            (resolveTableName s ctx) = some t
        ∧ t.rows.length = 1
        ∧ alookup (processValue (fuel + 1) s
              (JSONValue.arr (List.replicate (n + 1) (JSONValue.obj fs))) ctx).arrayReferenceCache
            (jsonStringify (JSONValue.arr (List.replicate (n + 1) (JSONValue.obj fs))))
          = some (resolveTableName s ctx ++ "[" ++
              joinSep "," (List.replicate (n + 1) "0") ++ "]"))
  ∧ parse c4input {} = "#users\x7bid,role\x7d: 1,admin" := by
  refine ⟨?_, by decide⟩
  intro fuel s fs n ctx hfs hflat hmiss htbl
  have hrep : List.replicate (n + 1) (JSONValue.obj fs) =
      JSONValue.obj fs :: List.replicate n (JSONValue.obj fs) := List.replicate_succ _ _
  rw [hrep] at hmiss ⊢
  have hk : hasKey s.arrayReferenceCache (jsonStringify
      (JSONValue.arr (JSONValue.obj fs :: List.replicate n (JSONValue.obj fs)))) = false := by
    unfold hasKey
    rw [hmiss]
    rfl
  have hregk : hasKey s.tableRegistry (resolveTableName s ctx) = false := by
    unfold hasKey
    rw [htbl]
    rfl
  have hcols : extractColumnNames (JSONValue.obj fs :: List.replicate n (JSONValue.obj fs)) =
      extractColumnNames [JSONValue.obj fs] := by
    rw [← List.replicate_succ]
    exact extractColumnNames_replicate n fs
  have hcolsne : extractColumnNames [JSONValue.obj fs] ≠ [] := by
    intro hnil
    exact hfs ((extractColumnNames_nil_iff _).mp hnil (JSONValue.obj fs) (by simp) fs rfl)
  have hempty : (extractColumnNames [JSONValue.obj fs]).isEmpty = false := by
    cases hc : extractColumnNames [JSONValue.obj fs] with
    | nil => exact absurd hc hcolsne
    | cons a l => rfl
  simp only [processValue, hk, Bool.false_eq_true, if_false, isRecord, Bool.not_true,
    hcols, hempty, hregk, Bool.not_false, if_true]
  rw [show alookup (createNewTable s (resolveTableName s ctx)
        (extractColumnNames [JSONValue.obj fs])).tableRegistry (resolveTableName s ctx) =
      some { columns := extractColumnNames [JSONValue.obj fs], rows := [], originalData := [] } by
    unfold createNewTable
    exact alookup_aset_self _ _ _]
  rw [List.foldl_cons]
  rw [arrayItemStep_fresh _ s (resolveTableName s ctx)
    (extractColumnNames [JSONValue.obj fs]) fs [] hflat]
  rw [foldl_replicate_fixed _ _ _ (fun idxs => arrayItemStep_dedup _ s (resolveTableName s ctx)
    (extractColumnNames [JSONValue.obj fs]) fs idxs hflat) n ([] ++ [0])]
  have hidx : ((([] : List Nat) ++ [0]) ++ List.replicate n 0) = List.replicate (n + 1) 0 := by
    simp [List.replicate_succ]
  refine ⟨arrayFreshTable s (resolveTableName s ctx)
    (extractColumnNames [JSONValue.obj fs]) fs, ?_, rfl, ?_⟩
  · show alookup (arrayFreshState s (resolveTableName s ctx)
        (extractColumnNames [JSONValue.obj fs]) fs).tableRegistry (resolveTableName s ctx) = _
    unfold arrayFreshState
    exact alookup_aset_self _ _ _
  · simp only [hidx, List.map_replicate]
    rw [show toString (0 : Nat) = "0" from rfl]
    exact alookup_aset_self _ _ _

/-- C4 witness: three identical records under the fresh context `users`
create one row and the cached reference `@users[0,0,0]`. -/
theorem c4_witness :
    ∃ t, alookup (processValue 1 emptyState
          (JSONValue.arr (List.replicate 3 (JSONValue.obj [("id", JSONValue.num 1)])))
          "users").tableRegistry "@users" = some t
      ∧ t.rows.length = 1
      ∧ alookup (processValue 1 emptyState
          (JSONValue.arr (List.replicate 3 (JSONValue.obj [("id", JSONValue.num 1)])))
          "users").arrayReferenceCache
          (jsonStringify (JSONValue.arr (List.replicate 3 (JSONValue.obj [("id", JSONValue.num 1)]))))
        = some ("@users" ++ "[" ++ joinSep "," (List.replicate 3 "0") ++ "]") :=
  c4_theorem.1 0 emptyState [("id", JSONValue.num 1)] 2 "users"
    (by decide) (by decide) (by decide) (by decide)

/-! ### C8: the depth-first topological sort -/

/-- Unvisited graph keys: the measure that shrinks along the `visiting`
stack and bounds the recursion depth of `visitNode`. -/
def unvisitedKeys (g : List (String × List String)) (visiting : List String) : Nat :=
  ((g.map Prod.fst).filter (fun k => !(visiting.contains k))).length

theorem hasKey_mem_keys {g : List (String × List String)} {d : String}
    (h : hasKey g d = true) : d ∈ g.map Prod.fst := by
  unfold hasKey at h
  obtain ⟨deps, hdeps⟩ := Option.isSome_iff_exists.mp h
  exact List.mem_map.mpr ⟨(d, deps), alookup_mem _ _ _ hdeps, rfl⟩

theorem filter_weaker_length_le {l : List String} {p q : String → Bool}
    (h : ∀ a, p a = true → q a = true) :
    (l.filter p).length ≤ (l.filter q).length := by
  induction l with
  | nil => simp
  | cons a l ih =>
      by_cases hp : p a
      · rw [List.filter_cons_of_pos hp, List.filter_cons_of_pos (h a hp)]
        simpa using ih
      · rw [List.filter_cons_of_neg (by simpa using hp)]
        by_cases hq : q a
        · rw [List.filter_cons_of_pos hq]
          exact Nat.le_succ_of_le ih
        · rw [List.filter_cons_of_neg (by simpa using hq)]
          exact ih

theorem contains_eq_decide_mem (vis : List String) (k : String) :
    vis.contains k = decide (k ∈ vis) := by
  unfold List.contains
  exact List.elem_eq_mem k vis

theorem filter_not_mem_cons_lt {l vis : List String} {node : String}
    (hmem : node ∈ l) (hnot : node ∉ vis) :
    (l.filter (fun k => !decide (k ∈ (node :: vis)))).length <
      (l.filter (fun k => !decide (k ∈ vis))).length := by
  induction l with
  | nil => cases hmem
  | cons a l ih =>
      by_cases ha : a = node
      · subst ha
        rw [List.filter_cons_of_neg (by simp), List.filter_cons_of_pos (by simpa using hnot)]
        have hle : (l.filter (fun k => !decide (k ∈ (a :: vis)))).length ≤
            (l.filter (fun k => !decide (k ∈ vis))).length := by
          apply filter_weaker_length_le
          intro x hx
          simp only [Bool.not_eq_eq_eq_not, Bool.not_true, decide_eq_false_iff_not,
            List.mem_cons, not_or] at hx ⊢
          exact hx.2
        simpa using Nat.lt_succ_of_le hle
      · have hmem' : node ∈ l := by
          rcases List.mem_cons.mp hmem with h | h
          · exact absurd h.symm ha
          · exact h
        by_cases hv : a ∈ vis
        · rw [List.filter_cons_of_neg (by simp [hv]), List.filter_cons_of_neg (by simp [hv])]
          exact ih hmem'
        · rw [List.filter_cons_of_pos (by simp [hv, ha]), List.filter_cons_of_pos (by simp [hv])]
          simpa using ih hmem'

theorem unvisitedKeys_cons_lt {g : List (String × List String)} {visiting : List String}
    {node : String} (hmem : node ∈ g.map Prod.fst)
    (hnot : visiting.contains node = false) :
    unvisitedKeys g (node :: visiting) < unvisitedKeys g visiting := by
  unfold unvisitedKeys
  have hfun : ∀ vis : List String,
      (fun k => !(vis.contains k)) = (fun k => !decide (k ∈ vis)) := by
    intro vis
    funext k
    rw [contains_eq_decide_mem]
  rw [hfun, hfun]
  refine filter_not_mem_cons_lt hmem ?_
  rw [contains_eq_decide_mem] at hnot
  simpa using hnot

theorem visitList_isSome
    (step : String → List String → List String → Option (List String × List String))
    (h : ∀ d v o, (step d v o).isSome) :
    ∀ (l : List String) (v o : List String), (visitList step l v o).isSome := by
  intro l
  induction l with
  | nil => intro v o; rfl
  | cons d rest ih =>
      intro v o
      unfold visitList
      obtain ⟨p, hp⟩ := Option.isSome_iff_exists.mp (h d v o)
      rw [hp]
      exact ih p.1 p.2

/-- Fuel larger than the number of unvisited graph keys never runs out:
this is the termination argument for the JS recursion, whose depth is
bounded by the growth of the in-progress set. -/
theorem visitNode_isSome (g : List (String × List String)) :
    ∀ (fuel : Nat) (node : String) (visited visiting order : List String),
      unvisitedKeys g visiting < fuel →
      (visitNode g fuel node visited visiting order).isSome := by
  intro fuel
  induction fuel with
  | zero => intro node visited visiting order h; omega
  | succ f ih =>
      intro node visited visiting order hfuel
      unfold visitNode
      by_cases h1 : visited.contains node
      · have h1' : node ∈ visited := by simpa using h1
        simp [h1']
      · have h1' : ¬ node ∈ visited := by simpa using h1
        rw [if_neg (by simpa using h1')]
        by_cases h2 : visiting.contains node
        · have h2' : node ∈ visiting := by simpa using h2
          simp [h1', h2']
        · have h2' : ¬ node ∈ visiting := by simpa using h2
          rw [if_neg (by simpa using h2')]
          cases halo : alookup g node with
          | none =>
              have hdeps : gdeps g node = [] := by
                unfold gdeps
                rw [halo]
                rfl
              rw [hdeps]
              rfl
          | some deps =>
              have hmem : node ∈ g.map Prod.fst :=
                List.mem_map.mpr ⟨(node, deps), alookup_mem _ _ _ halo, rfl⟩
              have hdec : unvisitedKeys g (node :: visiting) < f := by
                have := unvisitedKeys_cons_lt hmem (by simpa using h2)
                omega
              have hsome := visitList_isSome
                (fun d v o => if hasKey g d then visitNode g f d v (node :: visiting) o
                  else some (v, o))
                (by
                  intro d v o
                  by_cases hk : hasKey g d
                  · simp only [hk, if_true]
                    exact ih d v (node :: visiting) o hdec
                  · simp [hk]) (gdeps g node) visited order
              obtain ⟨p, hp⟩ := Option.isSome_iff_exists.mp hsome
              rw [hp]
              rfl

/-- The driver loop always completes: its fuel `g.length + 1` exceeds the
number of graph keys. -/
theorem topoAux_isSome (g : List (String × List String)) : (topoAux g).isSome := by
  unfold topoAux
  apply visitList_isSome
  intro d v o
  apply visitNode_isSome
  have : unvisitedKeys g [] ≤ (g.map Prod.fst).length := by
    unfold unvisitedKeys
    exact List.length_filter_le _ _
  simp only [List.length_map] at this
  omega

theorem depCellStep_not_self (self : String) (deps : List String) (cell : String)
    (h : self ∉ deps) : self ∉ depCellStep self deps cell := by
  unfold depCellStep
  by_cases h1 : startsWithAt cell = true
  · rw [if_pos h1]
    by_cases h2 : (cellTablePrefix cell != self && !(deps.contains (cellTablePrefix cell))) = true
    · rw [if_pos h2]
      intro hmem
      rcases List.mem_append.mp hmem with h3 | h3
      · exact h h3
      · have h4 : self = cellTablePrefix cell := by simpa using h3
        have h5 : cellTablePrefix cell ≠ self := by
          have := (Bool.and_eq_true _ _).mp h2
          simpa using this.1
        exact h5 h4.symm
    · rw [if_neg h2]
      exact h
  · rw [if_neg h1]
    exact h

theorem rowFold_not_self (self : String) :
    ∀ (row : List String) (deps : List String), self ∉ deps →
      self ∉ row.foldl (depCellStep self) deps := by
  intro row
  induction row with
  | nil => intro deps h; exact h
  | cons c rest ih =>
      intro deps h
      exact ih _ (depCellStep_not_self self deps c h)

theorem tableDeps_not_self (self : String) (rows : List (List String)) :
    self ∉ tableDeps self rows := by
  unfold tableDeps
  have : ∀ (rs : List (List String)) (deps : List String), self ∉ deps →
      self ∉ rs.foldl (fun deps row => row.foldl (depCellStep self) deps) deps := by
    intro rs
    induction rs with
    | nil => intro deps h; exact h
    | cons r rest ih =>
        intro deps h
        exact ih _ (rowFold_not_self self r deps h)
  exact this rows [] (by simp)

/-- `buildDependencyGraph` never records a self-edge (scolt.ts line 590:
`referencedTable !== tableName`). -/
theorem buildDependencyGraph_no_self (registry : List (String × TableData)) (a : String) :
    a ∉ gdeps (buildDependencyGraph registry) a := by
  unfold gdeps
  cases halo : alookup (buildDependencyGraph registry) a with
  | none => simp
  | some deps =>
      have hmem := alookup_mem _ _ _ halo
      unfold buildDependencyGraph at hmem
      obtain ⟨p, _, heq⟩ := List.mem_map.mp hmem
      injection heq with h1 h2
      simp only [Option.getD_some]
      rw [← h2, ← h1]
      exact tableDeps_not_self _ _

/-- The dependency relation of a graph: `edge g a b` says table `a` holds a
reference into table `b`. -/
def edge (g : List (String × List String)) (a b : String) : Prop :=
  b ∈ gdeps g a

/-- A graph with a strictly decreasing rank along edges has no cycle. -/
theorem no_cycle_of_rank (g : List (String × List String)) (f : String → Nat)
    (h : ∀ a b, edge g a b → f b < f a) :
    ∀ a, ¬ Relation.TransGen (edge g) a a := by
  have hmono : ∀ x y, Relation.TransGen (edge g) x y → f y < f x := by
    intro x y h2
    induction h2 with
    | single h3 => exact h _ _ h3
    | tail _ h4 ih => exact lt_trans (h _ _ h4) ih
  intro a hr
  exact absurd (hmono a a hr) (lt_irrefl _)

/-- Every emitted table is preceded by the known tables it depends on: the
correctness property of the topological order. -/
def GoodOrd (g : List (String × List String)) (order : List String) : Prop :=
  ∀ m ∈ order, ∀ d ∈ gdeps g m, hasKey g d = true →
    d ∈ order ∧ order.indexOf d < order.indexOf m

/-- The invariant threaded through the DFS: the order is duplicate-free,
mirrors the visited set, satisfies the ordering property, and never
contains a node of the protected in-progress set `S`. -/
def StInv (g : List (String × List String)) (S visited order : List String) : Prop :=
  order.Nodup ∧ (∀ x, x ∈ visited ↔ x ∈ order) ∧ GoodOrd g order ∧
    (∀ x ∈ S, x ∉ visited)

theorem GoodOrd_append (g : List (String × List String)) {order : List String}
    {node : String} (hgo : GoodOrd g order) (hnot : node ∉ order)
    (hdeps : ∀ d ∈ gdeps g node, hasKey g d = true → d ∈ order) :
    GoodOrd g (order ++ [node]) := by
  intro m hm d hd hk
  rcases List.mem_append.mp hm with hm' | hm'
  · obtain ⟨hdo, hlt⟩ := hgo m hm' d hd hk
    refine ⟨List.mem_append_left _ hdo, ?_⟩
    rw [List.indexOf_append_of_mem hdo, List.indexOf_append_of_mem hm']
    exact hlt
  · have hm2 : m = node := by simpa using hm'
    subst hm2
    have hdo := hdeps d hd hk
    refine ⟨List.mem_append_left _ hdo, ?_⟩
    rw [List.indexOf_append_of_mem hdo, List.indexOf_append_of_not_mem hnot]
    have h1 : order.indexOf d < order.length := List.indexOf_lt_length.mpr hdo
    omega

theorem visitList_step_inv
    (g : List (String × List String)) (S : List String) (f : Nat)
    (IH : ∀ (node : String) (visited visiting order : List String)
        (p : List String × List String),
        visitNode g f node visited visiting order = some p →
        StInv g visiting visited order →
        (∀ x ∈ visiting, Relation.TransGen (edge g) x node) →
        StInv g visiting p.1 p.2 ∧ (∃ d, p.2 = order ++ d) ∧
        (∀ x ∈ visited, x ∈ p.1) ∧ node ∈ p.1) :
    ∀ (l : List String) (visited order : List String) (p : List String × List String),
      visitList (fun d v o => if hasKey g d then visitNode g f d v S o else some (v, o))
        l visited order = some p →
      StInv g S visited order →
      (∀ d ∈ l, ∀ x ∈ S, Relation.TransGen (edge g) x d) →
      StInv g S p.1 p.2 ∧ (∃ d, p.2 = order ++ d) ∧ (∀ x ∈ visited, x ∈ p.1) ∧
      (∀ d ∈ l, hasKey g d = true → d ∈ p.1) := by
  intro l
  induction l with
  | nil =>
      intro visited order p h hInv _
      unfold visitList at h
      injection h with h
      rw [← h]
      exact ⟨hInv, ⟨[], by simp⟩, fun x hx => hx, by intro d hd; cases hd⟩
  | cons d rest ih =>
      intro visited order p h hInv hreach
      unfold visitList at h
      by_cases hk : hasKey g d = true
      · rw [if_pos hk] at h
        cases hstep : visitNode g f d visited S order with
        | none => rw [hstep] at h; cases h
        | some q =>
            rw [hstep] at h
            have h1 := IH d visited S order q hstep hInv
              (fun x hx => hreach d (List.mem_cons_self _ _) x hx)
            obtain ⟨hInv1, ⟨d1, hd1⟩, hsub1, hdin⟩ := h1
            have h2 := ih q.1 q.2 p h hInv1
              (fun d' hd' x hx => hreach d' (List.mem_cons_of_mem _ hd') x hx)
            obtain ⟨hInv2, ⟨d2, hd2⟩, hsub2, hrest⟩ := h2
            refine ⟨hInv2, ⟨d1 ++ d2, by rw [hd2, hd1, List.append_assoc]⟩,
              fun x hx => hsub2 x (hsub1 x hx), ?_⟩
            intro e he hke
            rcases List.mem_cons.mp he with he' | he'
            · rw [he']
              exact hsub2 d hdin
            · exact hrest e he' hke
      · rw [if_neg hk] at h
        have h2 := ih visited order p h hInv
          (fun d' hd' x hx => hreach d' (List.mem_cons_of_mem _ hd') x hx)
        obtain ⟨hInv2, hpre, hsub2, hrest⟩ := h2
        refine ⟨hInv2, hpre, hsub2, ?_⟩
        intro e he hke
        rcases List.mem_cons.mp he with he' | he'
        · rw [he'] at hke; exact absurd hke hk
        · exact hrest e he' hke

/-- DFS correctness under acyclicity: a successful visit preserves the
invariant, only appends to the order, grows the visited set, and ends with
the node visited. -/
theorem visitNode_main (g : List (String × List String))
    (acyc : ∀ x, ¬ Relation.TransGen (edge g) x x) :
    ∀ (fuel : Nat) (node : String) (visited visiting order : List String)
      (p : List String × List String),
      visitNode g fuel node visited visiting order = some p →
      StInv g visiting visited order →
      (∀ x ∈ visiting, Relation.TransGen (edge g) x node) →
      StInv g visiting p.1 p.2 ∧ (∃ d, p.2 = order ++ d) ∧
      (∀ x ∈ visited, x ∈ p.1) ∧ node ∈ p.1 := by
  intro fuel
  induction fuel with
  | zero =>
      intro node visited visiting order p h
      cases h
  | succ f ihf =>
      intro node visited visiting order p h hInv hpath
      unfold visitNode at h
      simp only [contains_eq_decide_mem, decide_eq_true_eq] at h
      by_cases h1 : node ∈ visited
      · rw [if_pos h1] at h
        injection h with h
        rw [← h]
        exact ⟨hInv, ⟨[], by simp⟩, fun x hx => hx, h1⟩
      · rw [if_neg h1] at h
        by_cases h2 : node ∈ visiting
        · exact absurd (hpath node h2) (acyc node)
        · rw [if_neg h2] at h
          cases hv : visitList (fun d v o =>
              if hasKey g d then visitNode g f d v (node :: visiting) o
              else some (v, o)) (gdeps g node) visited order with
          | none => rw [hv] at h; cases h
          | some q =>
              rw [hv] at h
              injection h with h
              obtain ⟨hnd, hmemiff, hgo, hprot⟩ := hInv
              have hInv' : StInv g (node :: visiting) visited order := by
                refine ⟨hnd, hmemiff, hgo, ?_⟩
                intro x hx
                rcases List.mem_cons.mp hx with hx' | hx'
                · rw [hx']; exact h1
                · exact hprot x hx'
              have hreach' : ∀ d ∈ gdeps g node, ∀ x ∈ node :: visiting,
                  Relation.TransGen (edge g) x d := by
                intro d hd x hx
                rcases List.mem_cons.mp hx with hx' | hx'
                · rw [hx']; exact Relation.TransGen.single hd
                · exact Relation.TransGen.tail (hpath x hx') hd
              have hlist := visitList_step_inv g (node :: visiting) f
                (fun n v vg o q hq hi hp => ihf n v vg o q hq hi hp)
                (gdeps g node) visited order q hv hInv' hreach'
              obtain ⟨⟨hnd1, hmemiff1, hgo1, hprot1⟩, ⟨dl, hdl⟩, hsub1, hdeps⟩ := hlist
              have hnodep : node ∉ q.1 := hprot1 node (List.mem_cons_self _ _)
              have hnodeo : node ∉ q.2 := fun hc => hnodep ((hmemiff1 node).mpr hc)
              rw [← h]
              refine ⟨⟨?_, ?_, ?_, ?_⟩, ⟨dl ++ [node], by rw [hdl, List.append_assoc]⟩,
                ?_, List.mem_cons_self _ _⟩
              · exact List.Nodup.append hnd1 (List.nodup_singleton _)
                  (by intro x hx hx2
                      have : x = node := by simpa using hx2
                      rw [this] at hx
                      exact hnodeo hx)
              · intro x
                constructor
                · intro hx
                  rcases List.mem_cons.mp hx with hx' | hx'
                  · rw [hx']; exact List.mem_append_right _ (List.mem_singleton_self _)
                  · exact List.mem_append_left _ ((hmemiff1 x).mp hx')
                · intro hx
                  rcases List.mem_append.mp hx with hx' | hx'
                  · exact List.mem_cons_of_mem _ ((hmemiff1 x).mpr hx')
                  · have : x = node := by simpa using hx'
                    rw [this]; exact List.mem_cons_self _ _
              · exact GoodOrd_append g hgo1 hnodeo
                  (fun d hd hk => (hmemiff1 d).mp (hdeps d hd hk))
              · intro x hx hc
                rcases List.mem_cons.mp hc with hc' | hc'
                · rw [hc'] at hx
                  exact absurd (hpath node hx) (acyc node)
                · exact absurd hc' (hprot1 x (List.mem_cons_of_mem _ hx))
              · intro x hx
                exact List.mem_cons_of_mem _ (hsub1 x hx)

theorem topo_driver_inv (g : List (String × List String))
    (acyc : ∀ x, ¬ Relation.TransGen (edge g) x x) :
    ∀ (l visited order : List String) (p : List String × List String),
      visitList (fun node v o => visitNode g (g.length + 1) node v [] o)
        l visited order = some p →
      StInv g [] visited order →
      StInv g [] p.1 p.2 ∧ (∀ x ∈ visited, x ∈ p.1) ∧ ∀ k ∈ l, k ∈ p.1 := by
  intro l
  induction l with
  | nil =>
      intro visited order p h hInv
      unfold visitList at h
      injection h with h
      rw [← h]
      exact ⟨hInv, fun x hx => hx, by intro k hk; cases hk⟩
  | cons k rest ih =>
      intro visited order p h hInv
      unfold visitList at h
      cases hstep : visitNode g (g.length + 1) k visited [] order with
      | none => rw [hstep] at h; cases h
      | some q =>
          rw [hstep] at h
          have h1 := visitNode_main g acyc (g.length + 1) k visited [] order q
            hstep hInv (by intro x hx; cases hx)
          obtain ⟨hInv1, _, hsub1, hkin⟩ := h1
          have h2 := ih q.1 q.2 p h hInv1
          obtain ⟨hInv2, hsub2, hrest⟩ := h2
          refine ⟨hInv2, fun x hx => hsub2 x (hsub1 x hx), ?_⟩
          intro e he
          rcases List.mem_cons.mp he with he' | he'
          · rw [he']; exact hsub2 k hkin
          · exact hrest e he'

/-- On an acyclic graph, `computeTopologicalOrder` emits a duplicate-free
order containing every graph key, in which every known dependency of a
table precedes the table. -/
theorem computeTopologicalOrder_sound (g : List (String × List String))
    (acyc : ∀ x, ¬ Relation.TransGen (edge g) x x) :
    (computeTopologicalOrder g).Nodup ∧
    (∀ k ∈ g.map Prod.fst, k ∈ computeTopologicalOrder g) ∧
    GoodOrd g (computeTopologicalOrder g) := by
  obtain ⟨p, hp⟩ := Option.isSome_iff_exists.mp (topoAux_isSome g)
  have hco : computeTopologicalOrder g = p.2 := by
    unfold computeTopologicalOrder
    rw [hp]
  have h0 : StInv g [] [] [] := by
    refine ⟨List.nodup_nil, by simp, ?_, by intro x hx; cases hx⟩
    intro m hm
    cases hm
  unfold topoAux at hp
  have hd := topo_driver_inv g acyc (g.map Prod.fst) [] [] p hp h0
  obtain ⟨⟨hnd, hmemiff, hgo, _⟩, _, hall⟩ := hd
  rw [hco]
  exact ⟨hnd, fun k hk => (hmemiff k).mp (hall k hk), hgo⟩

def c8g : List (String × List String) := [("@a", ["@b"]), ("@b", [])]

def c8cyc : List (String × List String) := [("@a", ["@b"]), ("@b", ["@a"])]

def c8registry : List (String × TableData) :=
  [("@users", ⟨["id"], [["@users[0]"]], [JSONValue.null]⟩)]

theorem c8g_edge (a b : String) (hb : edge c8g a b) : a = "@a" ∧ b = "@b" := by
  simp only [edge, gdeps, c8g, alookup] at hb
  by_cases h1 : ("@a" : String) = a
  · subst h1
    simp at hb
    exact ⟨rfl, hb⟩
  · have e1 : (("@a" : String) == a) = false := by simpa using h1
    rw [e1] at hb
    simp only [Bool.false_eq_true, if_false] at hb
    by_cases h2 : ("@b" : String) = a
    · subst h2
      simp at hb
    · have e2 : (("@b" : String) == a) = false := by simpa using h2
      rw [e2] at hb
      simp at hb

theorem c8g_acyclic : ∀ x, ¬ Relation.TransGen (edge c8g) x x :=
  no_cycle_of_rank c8g (fun s => if s = "@a" then 1 else 0) (by
    intro a b hb
    obtain ⟨ha, hbb⟩ := c8g_edge a b hb
    rw [ha, hbb]
    simp)

/-- C8: the depth-first topological sort terminates on every dependency
graph (cycles included), self-edges are excluded when the graph is built,
and on an acyclic graph every table appears in the emitted order strictly
after each known table it depends on. -/
theorem c8_theorem :
    (∀ g : List (String × List String), (topoAux g).isSome) ∧
    (∀ (registry : List (String × TableData)) (a : String),
        a ∉ gdeps (buildDependencyGraph registry) a) ∧
    (∀ g : List (String × List String),
        (∀ x, ¬ Relation.TransGen (edge g) x x) →
        ∀ a ∈ g.map Prod.fst, ∀ d ∈ gdeps g a, hasKey g d = true →
          d ∈ computeTopologicalOrder g ∧ a ∈ computeTopologicalOrder g ∧
          (computeTopologicalOrder g).indexOf d <
            (computeTopologicalOrder g).indexOf a) := by
  refine ⟨topoAux_isSome, buildDependencyGraph_no_self, ?_⟩
  intro g acyc a ha d hd hk
  obtain ⟨hnd, hall, hgo⟩ := computeTopologicalOrder_sound g acyc
  have hao : a ∈ computeTopologicalOrder g := hall a ha
  obtain ⟨hdo, hlt⟩ := hgo a hao d hd hk
  exact ⟨hdo, hao, hlt⟩

theorem c8_witness :
    (topoAux c8cyc).isSome ∧
    ("@users" ∉ gdeps (buildDependencyGraph c8registry) "@users") ∧
    ("@b" ∈ computeTopologicalOrder c8g ∧ "@a" ∈ computeTopologicalOrder c8g ∧
      (computeTopologicalOrder c8g).indexOf "@b" <
        (computeTopologicalOrder c8g).indexOf "@a") :=
  ⟨c8_theorem.1 c8cyc, c8_theorem.2.1 c8registry "@users",
   c8_theorem.2.2 c8g c8g_acyclic "@a" (by decide) "@b" (by decide) (by decide)⟩
